import Mathlib

/-!
A verification development for the witness-search core of the `invuln`
repository (`internal/vulncheck/witness.go`).

The Go heap of `FuncNode` pointers is modelled as an arena: function
identity (a Go pointer) is a natural number, and the call graph maps
identities to `FuncNode` records.  Go `nil`-able pointers and slices
become `Option`/`List`.  The only nondeterminism in the Go code that can
influence the result is the iteration order of the `minCs` map inside
`callsites`; it is modelled by an explicit enumeration parameter
`π : List Nat → List Nat` applied to the key list (a legitimate Go map
iteration is any permutation).  The goroutine fan-out in `CallStacks`
only affects the order of insertions into the result map, not its
contents, so the result map is modelled by its canonical contents: the
association list in `res.Vulns` order.
-/

/-- Source position of a function or call site (`go/token.Position`:
the fields used by `witness.go` are `Line`, `Column`, `Filename`). -/
structure Position where
  filename : String
  line : Int
  column : Int
deriving DecidableEq, Repr

/-- A call site linking a caller (`parent`, a function identity) to the
callee that owns it in its `callSites` list. -/
structure CallSite where
  parent : Nat
  name : String
  recvType : String
  pos : Option Position
  resolved : Bool
deriving DecidableEq, Repr

/-- A function or method node of the call graph.  `callSites` are the
incoming call sites: calls to this function. -/
structure FuncNode where
  name : String
  recvType : String
  pkgPath : String
  pos : Option Position
  callSites : List CallSite
deriving DecidableEq, Repr

/-- The call graph: an arena of `FuncNode` records addressed by their
identity. -/
structure CallGraph where
  functions : List (Nat × FuncNode)
deriving DecidableEq, Repr

/-- Dereference a function identity.  An identity that is not in the
arena dereferences to an inert node with no incoming call sites. -/
def CallGraph.node (g : CallGraph) (i : Nat) : FuncNode :=
  match g.functions.find? (fun e => e.1 == i) with
  | some e => e.2
  | none => { name := "", recvType := "", pkgPath := "", pos := none, callSites := [] }

/-- One (OSV entry, affected symbol) pairing.  `id` is the Go pointer
identity of the `Vuln` value, `osv` the identity of its OSV entry,
`importSink` the identity of its import-level sink package. -/
structure Vuln where
  id : Nat
  osv : Nat
  callSink : Option Nat
  importSink : Option Nat
deriving DecidableEq, Repr

/-- The completed analysis result consumed by the witness search. -/
structure Result where
  vulns : List Vuln
  entryFunctions : List Nat
  callGraph : CallGraph
deriving DecidableEq, Repr

/-- An element of a call stack (`StackEntry`): the function whose frame
is on the stack, and the call site inducing the next frame (`none` on
the last frame). -/
structure StackEntry where
  function : Nat
  call : Option CallSite
deriving DecidableEq, Repr

/-- A call stack from a client entry function down to a vulnerable
symbol. -/
def CallStack := List StackEntry
deriving DecidableEq, Repr

/-- Modelled from the spec: `FuncNode.String()` is not part of the
sources under verification; per the spec it is the display name,
package-qualified, receiver-qualified for methods. -/
def FuncNode.str (f : FuncNode) : String :=
  if f.recvType = "" then f.pkgPath ++ "." ++ f.name else f.recvType ++ "." ++ f.name

/-- `posLess` compares two positions by line and column number, and
filename if needed. -/
def posLess (p1 p2 : Position) : Bool :=
  if p1.line < p2.line then true
  else if p2.line < p1.line then false
  else if p1.column < p2.column then true
  else if p2.column < p1.column then false
  else p1.filename < p2.filename

/-- `csLess` compares a call site with a nullable call site by their
locations and, if needed, their string representation.  The final Go
`return` comparing formatted strings after the nil checks is
unreachable (the both-non-nil case is fully handled by the fast path),
so it has no counterpart here. -/
def csLess (cs1 : CallSite) (cs2o : Option CallSite) : Bool :=
  match cs2o with
  | none => true
  | some cs2 =>
    match cs1.pos, cs2.pos with
    | some p1, some p2 =>
      if posLess p1 p2 then true
      else if posLess p2 p1 then false
      else (cs1.recvType ++ "." ++ cs2.name) < (cs2.recvType ++ "." ++ cs2.name)
    | _, none => true
    | none, some _ => false

/-- `funcLess` compares two function nodes by locations and, if needed,
their string representation.  As in `csLess`, the trailing Go `return`
after the nil checks is unreachable. -/
def funcLess (f1 f2 : FuncNode) : Bool :=
  match f1.pos, f2.pos with
  | some p1, some p2 =>
    if posLess p1 p2 then true
    else if posLess p2 p1 then false
    else f1.str < f2.str
  | _, none => true
  | none, some _ => false

/-- Insert `x` into the reversed prefix: move `x` left past each element
`y` while `le x y` holds, as Go's insertion sort swaps the new element
leftwards. -/
def bubble (le : α → α → Bool) (x : α) : List α → List α
  | [] => [x]
  | y :: ys => if le x y then y :: bubble le x ys else x :: y :: ys

/-- Insert `x` at the end of `l` and bubble it leftwards. -/
def insertGo (le : α → α → Bool) (x : α) (l : List α) : List α :=
  (bubble le x l.reverse).reverse

/-- `sort.SliceStable`: Go's stable sort is straight insertion sort for
slices of at most 20 elements (and insertion-sorted blocks merged by a
stable symmetric merge beyond that); it is modelled by the insertion
sort itself, processing elements left to right and bubbling each new
element leftwards while the comparator accepts the swap. -/
def sortGo (le : α → α → Bool) (l : List α) : List α :=
  l.foldl (fun acc x => insertGo le x acc) []

/-- Look up the call site recorded for caller `p` in the `minCs`
association list (Go: `minCs[cs.Parent]`, `nil` when absent). -/
def lookupCS (m : List (Nat × CallSite)) (p : Nat) : Option CallSite :=
  match m.find? (fun e => e.1 == p) with
  | some e => some e.2
  | none => none

/-- Store `cs` for caller `p` in the `minCs` association list, keeping
first-insertion key order. -/
def storeCS (m : List (Nat × CallSite)) (p : Nat) (cs : CallSite) : List (Nat × CallSite) :=
  match m with
  | [] => [(p, cs)]
  | e :: rest => if e.1 == p then (p, cs) :: rest else e :: storeCS rest p cs

/-- The `minCs` map of `callsites`: for each non-visited caller of
`sites`, the smallest (`csLess`) call site, folded in slice order. -/
def minCsFold (sites : List CallSite) (visited : List Nat) : List (Nat × CallSite) :=
  sites.foldl
    (fun m cs =>
      if visited.contains cs.parent then m
      else if csLess cs (lookupCS m cs.parent) then storeCS m cs.parent cs
      else m)
    []

/-- `callsites` picks a call site from `sites` for each non-visited
caller function: the smallest (`csLess`) call site per caller, returned
sorted by caller (`funcLess`).  `π` models the iteration order of the
Go map `minCs`. -/
def callsites (g : CallGraph) (sites : List CallSite) (visited : List Nat)
    (π : List Nat → List Nat) : List CallSite :=
  let m := minCsFold sites visited
  let fs := sortGo (fun i j => funcLess (g.node i) (g.node j)) (π (m.map (fun e => e.1)))
  fs.filterMap (fun f => lookupCS m f)

/-- A chain of function calls (`callChain`): the head cell, plus the
flattened tail of `(call, f)` cells down to the vulnerable symbol. -/
structure CallChain where
  call : Option CallSite
  f : Nat
  child : List (Option CallSite × Nat)
deriving DecidableEq, Repr

/-- Convert a `callChain` to a `CallStack`. -/
def CallChain.stack (c : CallChain) : CallStack :=
  { function := c.f, call := c.call } ::
    c.child.map (fun e => { function := e.2, call := e.1 })

/-- Number of frames of a chain. -/
def CallChain.len (c : CallChain) : Nat := c.child.length + 1

/-- `weight` of a stack: the number of unresolved call sites in it. -/
def weight (stack : CallStack) : Nat :=
  stack.foldl (fun w e => match e.call with
    | some cs => if cs.resolved then w else w + 1
    | none => w) 0

/-- The comparator `CallStacks` sorts candidates with: by weight when
weights differ, `true` otherwise. -/
def stackLess (s1 s2 : CallStack) : Bool :=
  if weight s1 ≠ weight s2 then decide (weight s1 < weight s2) else true

/-- Process the call sites of one expanded function: for each call site,
push the extended chain unless the caller is a suppressed sibling
symbol, and record a candidate stack when the caller is an entry
function — appending it when it is the first candidate or matches the
candidate depth, and otherwise clearing the queue (Go
`queue.Init()`). -/
def processSites (entriesL skipL : List Nat) (c : CallChain) :
    List CallSite → List CallChain → List CallStack → Nat →
    List CallChain × List CallStack × Nat
  | [], queue, cands, candDepth => (queue, cands, candDepth)
  | cs :: rest, queue, cands, candDepth =>
    let nStack : CallChain := { call := some cs, f := cs.parent, child := (c.call, c.f) :: c.child }
    let q1 := if skipL.contains cs.parent then queue else queue ++ [nStack]
    if entriesL.contains cs.parent then
      let ns := nStack.stack
      if cands.isEmpty ∨ ns.length = candDepth then
        processSites entriesL skipL c rest q1 (cands ++ [ns]) ns.length
      else processSites entriesL skipL c rest [] cands candDepth
    else processSites entriesL skipL c rest q1 cands candDepth

/-- The BFS worklist loop of `callStack`.  `fuel` bounds the number of
iterations; `searchFuel` below always suffices, because every iteration
consumes either a queued chain or the unexpanded call sites of a graph
node. -/
def bfsLoop (g : CallGraph) (π : List Nat → List Nat) (entriesL skipL : List Nat) :
    Nat → List CallChain → List Nat → List CallStack → Nat → List CallStack
  | 0, _, _, cands, _ => cands
  | _ + 1, [], _, cands, _ => cands
  | fuel + 1, c :: rest, seen, cands, candDepth =>
    if seen.contains c.f then bfsLoop g π entriesL skipL fuel rest seen cands candDepth
    else
      let seen2 := c.f :: seen
      let css := callsites g (g.node c.f).callSites seen2 π
      let st := processSites entriesL skipL c css rest cands candDepth
      bfsLoop g π entriesL skipL fuel st.1 seen2 st.2.1 st.2.2

/-- An iteration bound for the BFS: one initial dequeue plus at most one
push per call site recorded in the arena. -/
def searchFuel (res : Result) : Nat :=
  1 + (res.callGraph.functions.map (fun e => e.2.callSites.length)).sum

/-- The suppressed sibling symbols of `vuln`: call sinks of other Vulns
with the same OSV entry and the same import sink. -/
def skipSymbols (vuln : Vuln) (res : Result) : List Nat :=
  (res.vulns.filter (fun v =>
    v.callSink.isSome && !(v.id == vuln.id) && v.osv == vuln.osv
      && v.importSink == vuln.importSink)).filterMap (fun v => v.callSink)

/-- All candidate call stacks of the shortest length collected by the
per-vulnerability BFS of `callStack`. -/
def callStackCandidates (vuln : Vuln) (res : Result) (π : List Nat → List Nat) :
    List CallStack :=
  match vuln.callSink with
  | none => []
  | some vulnSink =>
    bfsLoop res.callGraph π res.entryFunctions (skipSymbols vuln res)
      (searchFuel res) [{ call := none, f := vulnSink, child := [] }] [] [] 0

/-- `callStack` finds a representative call stack for `vuln`: the
candidates are sorted by their number of dynamic call sites and the
first one is returned (`nil` for a missing or unreachable sink). -/
def callStack (vuln : Vuln) (res : Result) (π : List Nat → List Nat) : Option CallStack :=
  match vuln.callSink with
  | none => none
  | some _ =>
    (sortGo stackLess (callStackCandidates vuln res π)).head?

/-- `CallStacks` returns representative call stacks for each
vulnerability in `res`, as the contents of the result map: one entry per
`Vuln`, in `res.vulns` order. -/
def CallStacks (res : Result) (π : List Nat → List Nat) : List (Vuln × Option CallStack) :=
  res.vulns.map (fun vuln => (vuln, callStack vuln res π))

/-! ### Specification-side notions: well-formed stacks and witness paths -/

/-- The function identities of a stack, outermost first. -/
def stackIds (s : CallStack) : List Nat :=
  List.map (fun e => e.function) s

/-- A well-formed stack ending at `sink`: the final entry is the sink
with no call site, and every other entry carries the call site whose
caller is that entry's function and which invokes the next entry's
function. -/
def StacksTo (g : CallGraph) (sink : Nat) : CallStack → Prop
  | [] => False
  | [e] => e.function = sink ∧ e.call = none
  | e :: e2 :: rest =>
    (∃ cs, e.call = some cs ∧ cs.parent = e.function ∧ cs ∈ (g.node e2.function).callSites)
    ∧ StacksTo g sink (e2 :: rest)

/-- `caller` has a call site invoking `callee`. -/
def calls (g : CallGraph) (caller callee : Nat) : Prop :=
  ∃ cs ∈ (g.node callee).callSites, cs.parent = caller

/-- A path of function identities from an entry function to `sink`
along call edges (each element calls the next). -/
def EntryPath (res : Result) (sink : Nat) (L : List Nat) : Prop :=
  (∃ E, L.head? = some E ∧ E ∈ res.entryFunctions)
  ∧ L.getLast? = some sink
  ∧ List.Chain' (calls res.callGraph) L

/-- A candidate witness path for `vuln` in the sense of the claimed
shortest-distance property: an entry-to-sink path of at least two
frames whose intermediate frames avoid the suppressed sibling
symbols. -/
def WitnessPath (vuln : Vuln) (res : Result) (sink : Nat) (L : List Nat) : Prop :=
  2 ≤ L.length ∧ EntryPath res sink L
  ∧ (∀ x ∈ L.tail.dropLast, x ∉ skipSymbols vuln res)

/-- A witness path in which the sink itself occurs only as the final
frame: exactly the paths the breadth-first search can discover. -/
def WitnessPathUnique (vuln : Vuln) (res : Result) (sink : Nat) (L : List Nat) : Prop :=
  WitnessPath vuln res sink L ∧ sink ∉ L.dropLast

/-- Soundness package for one candidate stack: well-formed down to the
sink, at least two frames, entry function on top, sink only at the
bottom, suppressed symbols only at the endpoints. -/
def CandidateOK (g : CallGraph) (entriesL skipL : List Nat) (sink : Nat) (s : CallStack) : Prop :=
  StacksTo g sink s ∧ 2 ≤ s.length
  ∧ (∃ E, (stackIds s).head? = some E ∧ E ∈ entriesL)
  ∧ sink ∉ (stackIds s).dropLast
  ∧ (∀ x ∈ (stackIds s).tail.dropLast, x ∉ skipL)

/-- Invariant of chains pushed while expanding the chain `c`. -/
def ChainProps (g : CallGraph) (entriesL skipL : List Nat) (sink : Nat) (c : CallChain)
    (cd : List CallStack) (t : CallChain) : Prop :=
  t.len = c.len + 1 ∧ StacksTo g sink t.stack
  ∧ (∀ x ∈ (stackIds t.stack).dropLast, x ∉ skipL)
  ∧ sink ∉ (stackIds t.stack).dropLast
  ∧ (t.f ∈ entriesL → ∃ s ∈ cd, s.length ≤ t.len)

/-- Invariant of the fold state inside `processSites`, relative to the
expanded chain `c` and the queue remainder `queue₀`: the queue is the
remainder plus freshly pushed chains, or has been cleared after a
candidate of a new length was found, in which case a candidate at most
one frame longer than `c` was already recorded. -/
def FoldState (g : CallGraph) (entriesL skipL : List Nat) (sink : Nat) (c : CallChain)
    (queue₀ : List CallChain) (st : List CallChain × List CallStack × Nat)
    (T : List CallChain) : Prop :=
  ((st.1 = queue₀ ++ T) ∨ (st.1 = T ∧ ∃ s ∈ st.2.1, s.length ≤ c.len + 1))
  ∧ (∀ t ∈ T, ChainProps g entriesL skipL sink c st.2.1 t)
  ∧ (∀ s ∈ st.2.1, s.length = st.2.2)
  ∧ (∀ s ∈ st.2.1, CandidateOK g entriesL skipL sink s)
  ∧ (st.2.1 ≠ [] → st.2.2 ≤ c.len + 1)

/-- Invariant of the BFS worklist states reached after the initial
expansion of the sink: queued chains are well formed, avoid suppressed
symbols and the sink away from their root, queue lengths are
nondecreasing within a window of one frame, candidates all have the
candidate depth as length and are sound, a queued chain whose head is
an entry function has a recorded candidate, and the sink is already
visited. -/
def BfsInv (g : CallGraph) (entriesL skipL : List Nat) (sink : Nat)
    (queue : List CallChain) (seen : List Nat) (cands : List CallStack) (candDepth : Nat) : Prop :=
  (∀ c ∈ queue, StacksTo g sink (CallChain.stack c))
  ∧ (∀ c ∈ queue, ∀ x ∈ (stackIds (CallChain.stack c)).dropLast, x ∉ skipL)
  ∧ (∀ c ∈ queue, sink ∉ (stackIds (CallChain.stack c)).dropLast)
  ∧ queue.Pairwise (fun a b => a.len ≤ b.len ∧ b.len ≤ a.len + 1)
  ∧ (∀ s ∈ cands, s.length = candDepth)
  ∧ (cands ≠ [] → ∀ c ∈ queue, candDepth ≤ c.len + 1)
  ∧ (∀ c ∈ queue, c.f ∈ entriesL → ∃ s ∈ cands, s.length ≤ c.len)
  ∧ (∀ s ∈ cands, CandidateOK g entriesL skipL sink s)
  ∧ sink ∈ seen

/-- Total number of call sites recorded in the arena for functions not
yet visited: the quantity that, together with the queue length, bounds
the remaining BFS iterations. -/
def unseenSites (g : CallGraph) (seen : List Nat) : Nat :=
  ((g.functions.filter (fun e => !(seen.contains e.1))).map
    (fun e => e.2.callSites.length)).sum

/-- Expansion trace of the BFS worklist loop: the functions popped and
expanded, in order, mirroring the recursion of `bfsLoop` cell for
cell. -/
def bfsLoopTrace (g : CallGraph) (π : List Nat → List Nat) (entriesL skipL : List Nat) :
    Nat → List CallChain → List Nat → List CallStack → Nat → List Nat
  | 0, _, _, _, _ => []
  | _ + 1, [], _, _, _ => []
  | fuel + 1, c :: rest, seen, cands, candDepth =>
    if seen.contains c.f then bfsLoopTrace g π entriesL skipL fuel rest seen cands candDepth
    else
      let seen2 := c.f :: seen
      let css := callsites g (g.node c.f).callSites seen2 π
      let st := processSites entriesL skipL c css rest cands candDepth
      c.f :: bfsLoopTrace g π entriesL skipL fuel st.1 seen2 st.2.1 st.2.2

/-- Distinct caller functions of a common callee are strictly ordered
by `funcLess`: the hypothesis under which map-iteration order cannot
leak into the result. -/
def StrictCallers (g : CallGraph) : Prop :=
  ∀ e ∈ g.functions, ∀ cs1 ∈ e.2.callSites, ∀ cs2 ∈ e.2.callSites,
    cs1.parent ≠ cs2.parent →
    funcLess (g.node cs1.parent) (g.node cs2.parent)
      = !(funcLess (g.node cs2.parent) (g.node cs1.parent))

/-! ### Concrete results used to exercise the claims -/

/-- A source position on line `n`. -/
def posL (n : Int) : Position := { filename := "f.go", line := n, column := 1 }

/-- C9 scenario: the chain `entry → a → b → sink`, all call sites
resolved, positions ordered by line number. -/
def csE9 : CallSite := { parent := 1, name := "a", recvType := "", pos := some (posL 1), resolved := true }

def csA9 : CallSite := { parent := 2, name := "b", recvType := "", pos := some (posL 2), resolved := true }

def csB9 : CallSite := { parent := 3, name := "sink", recvType := "", pos := some (posL 3), resolved := true }

def g9 : CallGraph := { functions := [
  (1, { name := "entry", recvType := "", pkgPath := "p", pos := some (posL 10), callSites := [] }),
  (2, { name := "a", recvType := "", pkgPath := "p", pos := some (posL 20), callSites := [csE9] }),
  (3, { name := "b", recvType := "", pkgPath := "p", pos := some (posL 30), callSites := [csA9] }),
  (4, { name := "sink", recvType := "", pkgPath := "q", pos := some (posL 40), callSites := [csB9] })] }

def v9 : Vuln := { id := 0, osv := 0, callSink := some 4, importSink := some 100 }

def r9 : Result := { vulns := [v9], entryFunctions := [1], callGraph := g9 }

/-- C3 counterexample scenario: two entry callers of the sink, both
without source positions. -/
def csa3 : CallSite := { parent := 1, name := "s", recvType := "A", pos := none, resolved := true }

def csb3 : CallSite := { parent := 2, name := "s", recvType := "B", pos := none, resolved := true }

def g3 : CallGraph := { functions := [
  (1, { name := "a", recvType := "", pkgPath := "p", pos := none, callSites := [] }),
  (2, { name := "b", recvType := "", pkgPath := "p", pos := none, callSites := [] }),
  (3, { name := "sink", recvType := "", pkgPath := "q", pos := none, callSites := [csa3, csb3] })] }

def v3 : Vuln := { id := 0, osv := 0, callSink := some 3, importSink := none }

def r3 : Result := { vulns := [v3], entryFunctions := [1, 2], callGraph := g3 }

/-- C1 counterexample scenario: the sink is the only entry function and
calls itself. -/
def csLoop : CallSite := { parent := 1, name := "sink", recvType := "", pos := none, resolved := true }

def gLoop : CallGraph := { functions := [
  (1, { name := "sink", recvType := "", pkgPath := "p", pos := none, callSites := [csLoop] })] }

def vLoop : Vuln := { id := 0, osv := 0, callSink := some 1, importSink := none }

def rLoop : Result := { vulns := [vLoop], entryFunctions := [1], callGraph := gLoop }

/-- C10 scenario: the sink is itself the only entry function and has no
callers. -/
def g10 : CallGraph := { functions := [
  (1, { name := "sink", recvType := "", pkgPath := "p", pos := none, callSites := [] })] }

def v10 : Vuln := { id := 0, osv := 0, callSink := some 1, importSink := none }

def r10 : Result := { vulns := [v10], entryFunctions := [1], callGraph := g10 }

/-- C2 scenario: two equal-length paths to the sink, one through a
resolved call site and one through an unresolved one. -/
def csr2 : CallSite := { parent := 1, name := "s", recvType := "", pos := some (posL 1), resolved := true }

def csu2 : CallSite := { parent := 2, name := "s", recvType := "", pos := some (posL 2), resolved := false }

def g2 : CallGraph := { functions := [
  (1, { name := "a", recvType := "", pkgPath := "p", pos := some (posL 10), callSites := [] }),
  (2, { name := "b", recvType := "", pkgPath := "p", pos := some (posL 20), callSites := [] }),
  (3, { name := "sink", recvType := "", pkgPath := "q", pos := some (posL 30), callSites := [csu2, csr2] })] }

def v2w : Vuln := { id := 7, osv := 3, callSink := some 3, importSink := some 50 }

def r2w : Result := { vulns := [v2w], entryFunctions := [1, 2], callGraph := g2 }

/-- C4 scenario: two sibling vulnerabilities of the same OSV entry
and import sink, with distinct call sinks both called from the
entry. -/
def cs4a : CallSite := { parent := 1, name := "va", recvType := "", pos := some (posL 1), resolved := true }

def cs4b : CallSite := { parent := 1, name := "vb", recvType := "", pos := some (posL 2), resolved := true }

def g4 : CallGraph := { functions := [
  (1, { name := "entry", recvType := "", pkgPath := "p", pos := some (posL 10), callSites := [] }),
  (3, { name := "va", recvType := "", pkgPath := "q", pos := some (posL 30), callSites := [cs4a] }),
  (4, { name := "vb", recvType := "", pkgPath := "q", pos := some (posL 40), callSites := [cs4b] })] }

def v4a : Vuln := { id := 0, osv := 5, callSink := some 3, importSink := some 7 }

def v4b : Vuln := { id := 1, osv := 5, callSink := some 4, importSink := some 7 }

def r4 : Result := { vulns := [v4a, v4b], entryFunctions := [1], callGraph := g4 }

/-- C6 scenario: a sink in an isolated subgraph, unreachable from the
entry function. -/
def gIso : CallGraph := { functions := [
  (1, { name := "entry", recvType := "", pkgPath := "p", pos := some (posL 10), callSites := [] }),
  (2, { name := "sink", recvType := "", pkgPath := "q", pos := some (posL 20), callSites := [] })] }

def vIso : Vuln := { id := 0, osv := 0, callSink := some 2, importSink := none }

def rIso : Result := { vulns := [vIso], entryFunctions := [1], callGraph := gIso }

/-- C8 failing inputs: call sites and functions without source
positions, whose qualified names are ordered. -/
def cs8a : CallSite := { parent := 0, name := "b", recvType := "A", pos := none, resolved := true }

def cs8b : CallSite := { parent := 0, name := "c", recvType := "A", pos := none, resolved := true }

def f8a : FuncNode := { name := "z", recvType := "", pkgPath := "p", pos := none, callSites := [] }

def f8b : FuncNode := { name := "a", recvType := "", pkgPath := "p", pos := none, callSites := [] }

/-! ### Lemmas about the stable sort -/

theorem bubble_perm (le : α → α → Bool) (x : α) (l : List α) :
    (bubble le x l).Perm (x :: l) := by
  induction l with
  | nil => exact List.Perm.refl _
  | cons y ys ih =>
    unfold bubble
    cases h : le x y
    · simp only [Bool.false_eq_true, if_false]
      exact List.Perm.refl _
    · simp only [if_true]
      exact (ih.cons y).trans (List.Perm.swap x y ys)

theorem insertGo_perm (le : α → α → Bool) (x : α) (l : List α) :
    (insertGo le x l).Perm (x :: l) := by
  unfold insertGo
  exact ((List.reverse_perm _).trans (bubble_perm le x l.reverse)).trans
    ((List.reverse_perm l).cons x)

theorem sortGo_perm (le : α → α → Bool) (l : List α) : (sortGo le l).Perm l := by
  suffices h : ∀ (l acc : List α),
      (l.foldl (fun acc x => insertGo le x acc) acc).Perm (acc ++ l) by
    simpa using h l []
  intro l
  induction l with
  | nil => intro acc; simp
  | cons x xs ih =>
    intro acc
    simp only [List.foldl_cons]
    exact ((ih _).trans (((insertGo_perm le x acc).append_right xs))).trans
      List.perm_middle.symm

theorem sortGo_head_mem (le : α → α → Bool) (l : List α) (x : α)
    (h : (sortGo le l).head? = some x) : x ∈ l :=
  (sortGo_perm le l).mem_iff.mp (List.mem_of_mem_head? (by simp [h]))

theorem bubble_pairwise (le : α → α → Bool) (x : α) (m : List α)
    (Htrans : ∀ a b c, le a b = true → le b c = true → le a c = true)
    (Hxy : ∀ y ∈ m, le x y = false → le y x = true)
    (hm : m.Pairwise (fun a b => le b a = true)) :
    (bubble le x m).Pairwise (fun a b => le b a = true) := by
  induction m with
  | nil => simp [bubble]
  | cons y ys ih =>
    rw [List.pairwise_cons] at hm
    unfold bubble
    cases h : le x y
    · simp only [Bool.false_eq_true, if_false]
      rw [List.pairwise_cons]
      constructor
      · intro z hz
        rcases List.mem_cons.mp hz with hz2 | hz2
        · cases hz2
          exact Hxy y (List.mem_cons_self y ys) h
        · exact Htrans z y x (hm.1 z hz2) (Hxy y (List.mem_cons_self y ys) h)
      · exact List.pairwise_cons.mpr hm
    · simp only [if_true]
      rw [List.pairwise_cons]
      refine ⟨?_, ih (fun z hz hf => Hxy z (List.mem_cons_of_mem y hz) hf) hm.2⟩
      intro z hz
      rcases List.mem_cons.mp ((bubble_perm le x ys).mem_iff.mp hz) with hz2 | hz2
      · cases hz2
        exact h
      · exact hm.1 z hz2

theorem insertGo_pairwise (le : α → α → Bool) (x : α) (l : List α)
    (Htrans : ∀ a b c, le a b = true → le b c = true → le a c = true)
    (Hxy : ∀ y ∈ l, le x y = false → le y x = true)
    (hl : l.Pairwise (fun a b => le a b = true)) :
    (insertGo le x l).Pairwise (fun a b => le a b = true) := by
  unfold insertGo
  rw [List.pairwise_reverse]
  have h1 : (l.reverse).Pairwise (fun a b => le b a = true) := by
    rw [List.pairwise_reverse]
    exact hl
  exact bubble_pairwise le x l.reverse Htrans
    (fun y hy hf => Hxy y (List.mem_reverse.mp hy) hf) h1

theorem sortGo_pairwise_total (le : α → α → Bool) (l : List α)
    (Htrans : ∀ a b c, le a b = true → le b c = true → le a c = true)
    (Htot : ∀ a b, le a b = false → le b a = true) :
    (sortGo le l).Pairwise (fun a b => le a b = true) := by
  suffices h : ∀ (l acc : List α), acc.Pairwise (fun a b => le a b = true) →
      (l.foldl (fun acc x => insertGo le x acc) acc).Pairwise (fun a b => le a b = true) by
    exact h l [] (List.Pairwise.nil)
  intro l
  induction l with
  | nil => intro acc hacc; simpa using hacc
  | cons x xs ih =>
    intro acc hacc
    simp only [List.foldl_cons]
    exact ih _ (insertGo_pairwise le x acc Htrans (fun y _ hf => Htot x y hf) hacc)

theorem sortGo_pairwise_nodup (le : α → α → Bool) (l : List α)
    (Htrans : ∀ a b c, le a b = true → le b c = true → le a c = true)
    (Hnd : l.Nodup)
    (Htot : ∀ a ∈ l, ∀ b ∈ l, a ≠ b → le a b = false → le b a = true) :
    (sortGo le l).Pairwise (fun a b => le a b = true) := by
  suffices h : ∀ (l2 acc : List α), acc.Pairwise (fun a b => le a b = true) →
      l2.Nodup → (∀ y ∈ acc, y ∈ l) → (∀ y ∈ l2, y ∈ l) → (∀ y ∈ l2, y ∉ acc) →
      (l2.foldl (fun acc x => insertGo le x acc) acc).Pairwise (fun a b => le a b = true) by
    exact h l [] List.Pairwise.nil Hnd (by simp) (fun y hy => hy) (by simp)
  intro l2
  induction l2 with
  | nil => intro acc hacc _ _ _ _; simpa using hacc
  | cons x xs ih =>
    intro acc hacc hnd hsub hsub2 hdisj
    simp only [List.foldl_cons]
    have hxl : x ∈ l := hsub2 x (List.mem_cons_self x xs)
    refine ih _ ?_ (List.Nodup.of_cons hnd) ?_
      (fun y hy => hsub2 y (List.mem_cons_of_mem x hy)) ?_
    · refine insertGo_pairwise le x acc Htrans ?_ hacc
      intro y hy hf
      exact Htot x hxl y (hsub y hy)
        (fun hxy => hdisj x (List.mem_cons_self x xs) (hxy ▸ hy)) hf
    · intro y hy
      rcases List.mem_cons.mp ((insertGo_perm le x acc).mem_iff.mp hy) with h2 | h2
      · exact h2 ▸ hxl
      · exact hsub y h2
    · intro y hy hmem
      rcases List.mem_cons.mp ((insertGo_perm le x acc).mem_iff.mp hmem) with h2 | h2
      · exact (List.nodup_cons.mp hnd).1 (h2 ▸ hy)
      · exact hdisj y (List.mem_cons_of_mem x hy) h2

theorem pairwise_perm_nodup_eq {R : α → α → Prop} :
    ∀ (l1 l2 : List α), l1.Pairwise R → l2.Pairwise R → l1.Perm l2 → l1.Nodup →
    (∀ a ∈ l1, ∀ b ∈ l1, a ≠ b → ¬(R a b ∧ R b a)) → l1 = l2 := by
  intro l1
  induction l1 with
  | nil => intro l2 _ _ hp _ _; simpa using hp.nil_eq
  | cons x t1 ih =>
    intro l2 h1 h2 hp hnd hasym
    cases l2 with
    | nil => exact absurd hp.symm.nil_eq (by simp)
    | cons y t2 =>
      by_cases hxy : x = y
      · cases hxy
        have ht : t1.Perm t2 := hp.cons_inv
        rw [List.pairwise_cons] at h1 h2
        rw [ih t2 h1.2 h2.2 ht (List.Nodup.of_cons hnd)
          (fun a ha b hb hne => hasym a (List.mem_cons_of_mem x ha)
            b (List.mem_cons_of_mem x hb) hne)]
      · exfalso
        have hy1 : y ∈ x :: t1 := hp.mem_iff.mpr (List.mem_cons_self y t2)
        have hx2 : x ∈ y :: t2 := hp.mem_iff.mp (List.mem_cons_self x t1)
        have hy1t : y ∈ t1 := by
          rcases List.mem_cons.mp hy1 with h | h
          · exact absurd h.symm hxy
          · exact h
        have hx2t : x ∈ t2 := by
          rcases List.mem_cons.mp hx2 with h | h
          · exact absurd h hxy
          · exact h
        exact hasym x (List.mem_cons_self x t1) y hy1 hxy
          ⟨(List.pairwise_cons.mp h1).1 y hy1t, (List.pairwise_cons.mp h2).1 x hx2t⟩

/-! ### Lemmas about `weight` and the candidate comparator -/

theorem stackLess_iff (s1 s2 : CallStack) :
    stackLess s1 s2 = true ↔ weight s1 ≤ weight s2 := by
  unfold stackLess
  by_cases h : weight s1 = weight s2
  · simp [h]
  · simp only [h, if_pos, ne_eq, not_false_iff, if_true, decide_eq_true_eq]
    omega

theorem stackLess_trans (a b c : CallStack) (h1 : stackLess a b = true)
    (h2 : stackLess b c = true) : stackLess a c = true := by
  rw [stackLess_iff] at h1 h2 ⊢
  omega

theorem stackLess_total (a b : CallStack) (h : stackLess a b = false) :
    stackLess b a = true := by
  rw [stackLess_iff]
  by_contra h2
  rw [← stackLess_iff] at *
  rw [stackLess_iff] at h2
  have := (stackLess_iff a b).mpr (by omega)
  rw [this] at h
  exact Bool.true_eq_false.mp h

theorem sortGo_stackLess_min (l : List CallStack) (x : CallStack)
    (h : (sortGo stackLess l).head? = some x) : ∀ y ∈ l, weight x ≤ weight y := by
  intro y hy
  have hp := sortGo_pairwise_total stackLess l stackLess_trans stackLess_total
  have hy2 : y ∈ sortGo stackLess l := (sortGo_perm stackLess l).mem_iff.mpr hy
  cases hs : sortGo stackLess l with
  | nil => rw [hs] at h; simp at h
  | cons z t =>
    rw [hs] at h hy2 hp
    simp only [List.head?_cons, Option.some_inj] at h
    cases h
    rcases List.mem_cons.mp hy2 with h2 | h2
    · rw [h2]
    · exact (stackLess_iff x y).mp ((List.pairwise_cons.mp hp).1 y h2)

/-! ### Lemmas about `minCsFold` and `callsites` -/

theorem lookupCS_some_mem (m : List (Nat × CallSite)) (p : Nat) (cs : CallSite)
    (h : lookupCS m p = some cs) : (p, cs) ∈ m := by
  unfold lookupCS at h
  cases hf : m.find? (fun e => e.1 == p) with
  | none => rw [hf] at h; simp at h
  | some e =>
    rw [hf] at h
    simp only [Option.some_inj] at h
    have h1 : (e.1 == p) = true := (List.find?_eq_some.mp hf).1
    have h2 : e ∈ m := List.mem_of_find?_eq_some hf
    have h3 : e.1 = p := by simpa using h1
    have : e = (p, cs) := by
      cases e
      simp only [Prod.mk.injEq]
      exact ⟨h3, h⟩
    exact this ▸ h2

theorem lookupCS_isSome (m : List (Nat × CallSite)) (p : Nat) :
    (lookupCS m p).isSome = true ↔ p ∈ m.map (fun e => e.1) := by
  unfold lookupCS
  cases hf : m.find? (fun e => e.1 == p) with
  | none =>
    simp only [Option.isSome_none, Bool.false_eq_true, false_iff, List.mem_map]
    rw [List.find?_eq_none] at hf
    rintro ⟨e, he, rfl⟩
    exact hf e he (by simp)
  | some e =>
    have h1 : (e.1 == p) = true := (List.find?_eq_some.mp hf).1
    simp only [Option.isSome_some, true_iff, List.mem_map]
    exact ⟨e, List.mem_of_find?_eq_some hf, by simpa using h1⟩

theorem storeCS_mem (p : Nat) (cs : CallSite) :
    ∀ (m : List (Nat × CallSite)) (e : Nat × CallSite), e ∈ storeCS m p cs →
    e = (p, cs) ∨ e ∈ m := by
  intro m
  induction m with
  | nil => intro e he; simp only [storeCS] at he; left; simpa using he
  | cons x rest ih =>
    intro e he
    unfold storeCS at he
    by_cases h : x.1 = p
    · simp only [h, beq_self_eq_true, if_true] at he
      rcases List.mem_cons.mp he with h2 | h2
      · left; exact h2
      · right; exact List.mem_cons_of_mem x h2
    · rw [if_neg (by simpa using h)] at he
      rcases List.mem_cons.mp he with h2 | h2
      · right; exact h2 ▸ List.mem_cons_self x rest
      · rcases ih e h2 with h3 | h3
        · left; exact h3
        · right; exact List.mem_cons_of_mem x h3

theorem storeCS_keys (p : Nat) (cs : CallSite) :
    ∀ (m : List (Nat × CallSite)),
    (storeCS m p cs).map (fun e => e.1) =
      if p ∈ m.map (fun e => e.1) then m.map (fun e => e.1)
      else m.map (fun e => e.1) ++ [p] := by
  intro m
  induction m with
  | nil => simp [storeCS]
  | cons x rest ih =>
    unfold storeCS
    by_cases h : x.1 = p
    · simp [h, beq_self_eq_true, if_true]
    · rw [if_neg (by simpa using h)]
      simp only [List.map_cons]
      rw [ih]
      by_cases h2 : p ∈ rest.map (fun e => e.1)
      · rw [if_pos h2, if_pos (by simp [h2])]
      · rw [if_neg h2, if_neg (by simp [h2, Ne.symm h])]
        simp

theorem storeCS_length (p : Nat) (cs : CallSite) (m : List (Nat × CallSite)) :
    (storeCS m p cs).length ≤ m.length + 1 := by
  have h := congrArg List.length (storeCS_keys p cs m)
  simp only [List.length_map] at h
  by_cases h2 : p ∈ m.map (fun e => e.1)
  · rw [if_pos h2] at h
    simp only [List.length_map] at h
    omega
  · rw [if_neg h2] at h
    simp only [List.length_append, List.length_map, List.length_singleton] at h
    omega

theorem minCsFold_go (visited : List Nat) (S : List CallSite) :
    ∀ (sites : List CallSite) (acc : List (Nat × CallSite)),
    (∀ cs ∈ sites, cs ∈ S) →
    (∀ e ∈ acc, e.2.parent = e.1 ∧ e.2 ∈ S ∧ visited.contains e.1 = false) →
    ((acc.map (fun e => e.1)).Nodup) →
    (∀ e ∈ sites.foldl
      (fun m cs => if visited.contains cs.parent then m
        else if csLess cs (lookupCS m cs.parent) then storeCS m cs.parent cs else m) acc,
      e.2.parent = e.1 ∧ e.2 ∈ S ∧ visited.contains e.1 = false)
    ∧ ((sites.foldl
      (fun m cs => if visited.contains cs.parent then m
        else if csLess cs (lookupCS m cs.parent) then storeCS m cs.parent cs else m) acc).map
        (fun e => e.1)).Nodup
    ∧ (∀ p, p ∈ acc.map (fun e => e.1) → p ∈ (sites.foldl
      (fun m cs => if visited.contains cs.parent then m
        else if csLess cs (lookupCS m cs.parent) then storeCS m cs.parent cs else m) acc).map
        (fun e => e.1))
    ∧ (∀ cs ∈ sites, visited.contains cs.parent = false → cs.parent ∈ (sites.foldl
      (fun m cs => if visited.contains cs.parent then m
        else if csLess cs (lookupCS m cs.parent) then storeCS m cs.parent cs else m) acc).map
        (fun e => e.1))
    ∧ (sites.foldl
      (fun m cs => if visited.contains cs.parent then m
        else if csLess cs (lookupCS m cs.parent) then storeCS m cs.parent cs else m) acc).length
      ≤ acc.length + sites.length := by
  intro sites
  induction sites with
  | nil =>
    intro acc _ hacc hnd
    exact ⟨hacc, hnd, fun p hp => hp, by simp, by simp⟩
  | cons cs0 rest ih =>
    intro acc hsub hacc hnd
    simp only [List.foldl_cons]
    have hcs0S : cs0 ∈ S := hsub cs0 (List.mem_cons_self cs0 rest)
    have hrsub : ∀ cs ∈ rest, cs ∈ S := fun cs h => hsub cs (List.mem_cons_of_mem cs0 h)
    by_cases hv : visited.contains cs0.parent
    · rw [if_pos hv]
      obtain ⟨b1, b2, b3, b4, b5⟩ := ih acc hrsub hacc hnd
      refine ⟨b1, b2, b3, ?_, by simp only [List.length_cons]; omega⟩
      intro cs hcs hnv
      rcases List.mem_cons.mp hcs with h | h
      · rw [h] at hnv; rw [hnv] at hv; exact absurd hv (by simp)
      · exact b4 cs h hnv
    · rw [if_neg hv]
      by_cases hless : csLess cs0 (lookupCS acc cs0.parent)
      · rw [if_pos hless]
        have hacc2 : ∀ e ∈ storeCS acc cs0.parent cs0,
            e.2.parent = e.1 ∧ e.2 ∈ S ∧ visited.contains e.1 = false := by
          intro e he
          rcases storeCS_mem cs0.parent cs0 acc e he with h | h
          · rw [h]
            exact ⟨rfl, hcs0S, by simpa using hv⟩
          · exact hacc e h
        have hnd2 : ((storeCS acc cs0.parent cs0).map (fun e => e.1)).Nodup := by
          rw [storeCS_keys]
          by_cases hk : cs0.parent ∈ acc.map (fun e => e.1)
          · rw [if_pos hk]; exact hnd
          · rw [if_neg hk]
            rw [List.nodup_append]
            exact ⟨hnd, List.nodup_singleton _, by simpa using hk⟩
        obtain ⟨b1, b2, b3, b4, b5⟩ := ih (storeCS acc cs0.parent cs0) hrsub hacc2 hnd2
        have hmono : ∀ p, p ∈ acc.map (fun e => e.1) →
            p ∈ (storeCS acc cs0.parent cs0).map (fun e => e.1) := by
          intro p hp
          rw [storeCS_keys]
          by_cases hk : cs0.parent ∈ acc.map (fun e => e.1)
          · rw [if_pos hk]; exact hp
          · rw [if_neg hk]; exact List.mem_append_left _ hp
        have hself : cs0.parent ∈ (storeCS acc cs0.parent cs0).map (fun e => e.1) := by
          rw [storeCS_keys]
          by_cases hk : cs0.parent ∈ acc.map (fun e => e.1)
          · rw [if_pos hk]; exact hk
          · rw [if_neg hk]; exact List.mem_append_right _ (by simp)
        refine ⟨b1, b2, fun p hp => b3 p (hmono p hp), ?_, ?_⟩
        · intro cs hcs hnv
          rcases List.mem_cons.mp hcs with h | h
          · rw [h]; exact b3 cs0.parent hself
          · exact b4 cs h hnv
        · have := storeCS_length cs0.parent cs0 acc
          simp only [List.length_cons]
          omega
      · rw [if_neg hless]
        have hkey : cs0.parent ∈ acc.map (fun e => e.1) := by
          rw [← lookupCS_isSome]
          cases hlk : lookupCS acc cs0.parent with
          | none => rw [hlk] at hless; exact absurd rfl hless
          | some c => simp
        obtain ⟨b1, b2, b3, b4, b5⟩ := ih acc hrsub hacc hnd
        refine ⟨b1, b2, b3, ?_, by simp only [List.length_cons]; omega⟩
        intro cs hcs hnv
        rcases List.mem_cons.mp hcs with h | h
        · rw [h]; exact b3 cs0.parent hkey
        · exact b4 cs h hnv

theorem minCsFold_entries (sites : List CallSite) (visited : List Nat) :
    ∀ e ∈ minCsFold sites visited,
      e.2.parent = e.1 ∧ e.2 ∈ sites ∧ visited.contains e.1 = false :=
  (minCsFold_go visited sites sites [] (fun _ h => h) (by simp) (by simp)).1

theorem minCsFold_keys_nodup (sites : List CallSite) (visited : List Nat) :
    ((minCsFold sites visited).map (fun e => e.1)).Nodup :=
  (minCsFold_go visited sites sites [] (fun _ h => h) (by simp) (by simp)).2.1

theorem minCsFold_complete (sites : List CallSite) (visited : List Nat) :
    ∀ cs ∈ sites, visited.contains cs.parent = false →
      cs.parent ∈ (minCsFold sites visited).map (fun e => e.1) :=
  (minCsFold_go visited sites sites [] (fun _ h => h) (by simp) (by simp)).2.2.2.1

theorem minCsFold_length (sites : List CallSite) (visited : List Nat) :
    (minCsFold sites visited).length ≤ sites.length := by
  have := (minCsFold_go visited sites sites [] (fun _ h => h) (by simp) (by simp)).2.2.2.2
  simpa only [List.length_nil, Nat.zero_add] using this

theorem callsites_sound (g : CallGraph) (sites : List CallSite) (visited : List Nat)
    (π : List Nat → List Nat) :
    ∀ cs ∈ callsites g sites visited π,
      cs ∈ sites ∧ visited.contains cs.parent = false := by
  intro cs hcs
  unfold callsites at hcs
  simp only [List.mem_filterMap] at hcs
  obtain ⟨f, _, hlk⟩ := hcs
  have hmem := lookupCS_some_mem _ _ _ hlk
  have := minCsFold_entries sites visited (f, cs) hmem
  refine ⟨this.2.1, ?_⟩
  have hp : cs.parent = f := this.1
  rw [hp]
  exact this.2.2

theorem callsites_complete (g : CallGraph) (sites : List CallSite) (visited : List Nat)
    (π : List Nat → List Nat) (Hπ : ∀ l : List Nat, (π l).Perm l)
    (cs0 : CallSite) (h0 : cs0 ∈ sites) (hnv : visited.contains cs0.parent = false) :
    ∃ cs ∈ callsites g sites visited π, cs.parent = cs0.parent := by
  have hkey := minCsFold_complete sites visited cs0 h0 hnv
  have hπm : cs0.parent ∈ π ((minCsFold sites visited).map (fun e => e.1)) :=
    (Hπ _).mem_iff.mpr hkey
  have hfs : cs0.parent ∈ sortGo (fun i j => funcLess (g.node i) (g.node j))
      (π ((minCsFold sites visited).map (fun e => e.1))) :=
    (sortGo_perm _ _).mem_iff.mpr hπm
  have hlk : (lookupCS (minCsFold sites visited) cs0.parent).isSome = true :=
    (lookupCS_isSome _ _).mpr hkey
  cases hlk2 : lookupCS (minCsFold sites visited) cs0.parent with
  | none => rw [hlk2] at hlk; simp at hlk
  | some cs =>
    refine ⟨cs, ?_, ?_⟩
    · unfold callsites
      simp only [List.mem_filterMap]
      exact ⟨cs0.parent, hfs, hlk2⟩
    · exact (minCsFold_entries sites visited _ (lookupCS_some_mem _ _ _ hlk2)).1

theorem callsites_length (g : CallGraph) (sites : List CallSite) (visited : List Nat)
    (π : List Nat → List Nat) (Hπ : ∀ l : List Nat, (π l).Perm l) :
    (callsites g sites visited π).length ≤ sites.length := by
  unfold callsites
  have h1 : (sortGo (fun i j => funcLess (g.node i) (g.node j))
      (π ((minCsFold sites visited).map (fun e => e.1)))).length
      = (minCsFold sites visited).length := by
    rw [(sortGo_perm _ _).length_eq, (Hπ _).length_eq, List.length_map]
  calc (List.filterMap (fun f => lookupCS (minCsFold sites visited) f)
        (sortGo (fun i j => funcLess (g.node i) (g.node j))
          (π ((minCsFold sites visited).map (fun e => e.1))))).length
      ≤ (sortGo (fun i j => funcLess (g.node i) (g.node j))
          (π ((minCsFold sites visited).map (fun e => e.1)))).length :=
        List.length_filterMap_le _ _
    _ = (minCsFold sites visited).length := h1
    _ ≤ sites.length := minCsFold_length sites visited

/-! ### Basic lemmas about chains, stacks and paths -/

theorem contains_iff_mem (l : List Nat) (a : Nat) : l.contains a = true ↔ a ∈ l := by
  simp [List.contains]

theorem chain_stack_length (c : CallChain) : (CallChain.stack c).length = c.len := by
  simp [CallChain.stack, CallChain.len]

theorem chain_stack_ne_nil (c : CallChain) : CallChain.stack c ≠ [] := by
  simp [CallChain.stack]

theorem chain_stack_head (c : CallChain) :
    (CallChain.stack c).head? = some { function := c.f, call := c.call } := by
  simp [CallChain.stack]

theorem stackIds_cons (e : StackEntry) (s : List StackEntry) :
    stackIds (e :: s) = e.function :: stackIds s := rfl

theorem stackIds_length (s : CallStack) : (stackIds s).length = s.length := by
  simp [stackIds]

theorem nStack_stack (cs : CallSite) (c : CallChain) :
    CallChain.stack { call := some cs, f := cs.parent, child := (c.call, c.f) :: c.child } =
      { function := cs.parent, call := some cs } :: CallChain.stack c := rfl

theorem nStack_len (cs : CallSite) (c : CallChain) :
    CallChain.len { call := some cs, f := cs.parent, child := (c.call, c.f) :: c.child } =
      c.len + 1 := by
  simp [CallChain.len]

theorem stacksTo_ne_nil (g : CallGraph) (sink : Nat) (s : CallStack)
    (h : StacksTo g sink s) : s ≠ [] := by
  cases s with
  | nil => exact absurd h (by simp [StacksTo])
  | cons e t => simp

theorem stacksTo_cons (g : CallGraph) (sink : Nat) (e : StackEntry) (s : CallStack)
    (hs : s ≠ []) :
    StacksTo g sink (e :: s) ↔
      ((∃ cs, e.call = some cs ∧ cs.parent = e.function ∧
        (∀ e2, s.head? = some e2 → cs ∈ (g.node e2.function).callSites))
      ∧ StacksTo g sink s) := by
  cases s with
  | nil => exact absurd rfl hs
  | cons e2 t =>
    show ((∃ cs, e.call = some cs ∧ cs.parent = e.function ∧ cs ∈ (g.node e2.function).callSites)
      ∧ StacksTo g sink (e2 :: t)) ↔ _
    constructor
    · rintro ⟨⟨cs, h1, h2, h3⟩, h4⟩
      exact ⟨⟨cs, h1, h2, fun x hx => by
        simp only [List.head?_cons, Option.some_inj] at hx
        exact hx ▸ h3⟩, h4⟩
    · rintro ⟨⟨cs, h1, h2, h3⟩, h4⟩
      exact ⟨⟨cs, h1, h2, h3 e2 rfl⟩, h4⟩

theorem stacksTo_getLast (g : CallGraph) (sink : Nat) :
    ∀ (s : CallStack), StacksTo g sink s →
      s.getLast? = some { function := sink, call := none } := by
  intro s
  induction s with
  | nil => intro h; exact absurd h (by simp [StacksTo])
  | cons e t ih =>
    intro h
    cases t with
    | nil =>
      obtain ⟨h1, h2⟩ := h
      have : e = { function := sink, call := none } := by
        cases e
        simp only [StackEntry.mk.injEq]
        exact ⟨h1, h2⟩
      simp [this]
    | cons e2 t2 =>
      obtain ⟨_, h2⟩ := h
      rw [List.getLast?_cons_cons]
      exact ih h2

theorem stacksTo_chain (g : CallGraph) (sink : Nat) :
    ∀ (s : CallStack), StacksTo g sink s → List.Chain' (calls g) (stackIds s) := by
  intro s
  induction s with
  | nil => intro h; exact absurd h (by simp [StacksTo])
  | cons e t ih =>
    intro h
    cases t with
    | nil => simp [stackIds]
    | cons e2 t2 =>
      obtain ⟨⟨cs, _, h2, h3⟩, h4⟩ := h
      rw [stackIds_cons, stackIds_cons]
      rw [stackIds_cons] at ih
      refine List.Chain'.cons ?_ (ih h4)
      exact ⟨cs, h3, h2⟩

theorem stacksTo_last_sink (g : CallGraph) (sink : Nat) (s : CallStack)
    (h : StacksTo g sink s) : (stackIds s).getLast? = some sink := by
  have h2 := stacksTo_getLast g sink s h
  cases hs : s.getLast? with
  | none => rw [hs] at h2; simp at h2
  | some e =>
    rw [hs] at h2
    simp only [Option.some_inj] at h2
    have : (stackIds s).getLast? = some e.function := by
      unfold stackIds
      rw [List.getLast?_map, hs]
      rfl
    rw [this, h2]

theorem contains_false_not_mem (l : List Nat) (a : Nat) (h : l.contains a = false) : a ∉ l := by
  intro hm
  rw [← contains_iff_mem] at hm
  rw [h] at hm
  exact Bool.false_ne_true hm

theorem stackIds_ne_nil (s : CallStack) (h : s ≠ []) : stackIds s ≠ [] := by
  intro h0
  exact h (List.map_eq_nil_iff.mp h0)

theorem nStack_ids (cs : CallSite) (c : CallChain) :
    stackIds (CallChain.stack { call := some cs, f := cs.parent, child := (c.call, c.f) :: c.child }) =
      cs.parent :: stackIds (CallChain.stack c) := by
  rw [nStack_stack, stackIds_cons]

theorem nStack_ids_dropLast (cs : CallSite) (c : CallChain) :
    (stackIds (CallChain.stack { call := some cs, f := cs.parent, child := (c.call, c.f) :: c.child })).dropLast =
      cs.parent :: (stackIds (CallChain.stack c)).dropLast := by
  rw [nStack_ids]
  exact List.dropLast_cons_of_ne_nil (stackIds_ne_nil _ (chain_stack_ne_nil c))

theorem nStack_wf (g : CallGraph) (sink : Nat) (cs : CallSite) (c : CallChain)
    (hcwf : StacksTo g sink (CallChain.stack c))
    (hcs : cs ∈ (g.node c.f).callSites) :
    StacksTo g sink
      (CallChain.stack { call := some cs, f := cs.parent, child := (c.call, c.f) :: c.child }) := by
  rw [nStack_stack]
  rw [stacksTo_cons g sink _ _ (chain_stack_ne_nil c)]
  refine ⟨⟨cs, rfl, rfl, ?_⟩, hcwf⟩
  intro e2 he2
  rw [chain_stack_head c] at he2
  simp only [Option.some_inj] at he2
  rw [← he2]
  exact hcs

theorem nStack_candidateOK (g : CallGraph) (entriesL skipL : List Nat) (sink : Nat)
    (cs : CallSite) (c : CallChain) (seen2 : List Nat)
    (hcwf : StacksTo g sink (CallChain.stack c))
    (hcskip : ∀ x ∈ (stackIds (CallChain.stack c)).dropLast, x ∉ skipL)
    (hcsink : sink ∉ (stackIds (CallChain.stack c)).dropLast)
    (hsinkseen : sink ∈ seen2)
    (hcs : cs ∈ (g.node c.f).callSites)
    (hnv : seen2.contains cs.parent = false)
    (hE : cs.parent ∈ entriesL) :
    CandidateOK g entriesL skipL sink
      (CallChain.stack { call := some cs, f := cs.parent, child := (c.call, c.f) :: c.child }) := by
  have hnsink : cs.parent ≠ sink := by
    intro he
    exact contains_false_not_mem seen2 cs.parent hnv (he ▸ hsinkseen)
  refine ⟨nStack_wf g sink cs c hcwf hcs, ?_, ?_, ?_, ?_⟩
  · rw [chain_stack_length, nStack_len]
    have : 1 ≤ c.len := by simp [CallChain.len]
    omega
  · rw [nStack_ids]
    exact ⟨cs.parent, rfl, hE⟩
  · rw [nStack_ids_dropLast]
    intro hmem
    rcases List.mem_cons.mp hmem with h | h
    · exact hnsink h.symm
    · exact hcsink h
  · rw [nStack_ids]
    simp only [List.tail_cons]
    exact hcskip

theorem chainProps_mono (g : CallGraph) (entriesL skipL : List Nat) (sink : Nat)
    (c : CallChain) (cd cd' : List CallStack) (t : CallChain)
    (hsub : ∀ s ∈ cd, s ∈ cd')
    (h : ChainProps g entriesL skipL sink c cd t) :
    ChainProps g entriesL skipL sink c cd' t := by
  obtain ⟨h1, h2, h3, h4, h5⟩ := h
  refine ⟨h1, h2, h3, h4, fun hE => ?_⟩
  obtain ⟨s, hs1, hs2⟩ := h5 hE
  exact ⟨s, hsub s hs1, hs2⟩

theorem nStack_chainProps (g : CallGraph) (entriesL skipL : List Nat) (sink : Nat)
    (cs : CallSite) (c : CallChain) (seen2 : List Nat) (cd : List CallStack)
    (hcwf : StacksTo g sink (CallChain.stack c))
    (hcskip : ∀ x ∈ (stackIds (CallChain.stack c)).dropLast, x ∉ skipL)
    (hcsink : sink ∉ (stackIds (CallChain.stack c)).dropLast)
    (hsinkseen : sink ∈ seen2)
    (hcs : cs ∈ (g.node c.f).callSites)
    (hnv : seen2.contains cs.parent = false)
    (hP : skipL.contains cs.parent = false)
    (hent : cs.parent ∈ entriesL → ∃ s ∈ cd, s.length ≤ c.len + 1) :
    ChainProps g entriesL skipL sink c cd
      { call := some cs, f := cs.parent, child := (c.call, c.f) :: c.child } := by
  refine ⟨nStack_len cs c, nStack_wf g sink cs c hcwf hcs, ?_, ?_, ?_⟩
  · rw [nStack_ids_dropLast]
    intro x hx
    rcases List.mem_cons.mp hx with h | h
    · exact h ▸ contains_false_not_mem skipL cs.parent hP
    · exact hcskip x h
  · rw [nStack_ids_dropLast]
    intro hmem
    rcases List.mem_cons.mp hmem with h | h
    · exact contains_false_not_mem seen2 cs.parent hnv (h ▸ hsinkseen)
    · exact hcsink h
  · intro hE
    obtain ⟨s, h1, h2⟩ := hent hE
    exact ⟨s, h1, by rw [nStack_len]; exact h2⟩

theorem processSites_go
    (g : CallGraph) (entriesL skipL : List Nat) (sink : Nat) (c : CallChain)
    (seen2 : List Nat) (queue₀ : List CallChain)
    (hcwf : StacksTo g sink (CallChain.stack c))
    (hcskip : ∀ x ∈ (stackIds (CallChain.stack c)).dropLast, x ∉ skipL)
    (hcsink : sink ∉ (stackIds (CallChain.stack c)).dropLast)
    (hsinkseen : sink ∈ seen2) :
    ∀ (css : List CallSite) (q : List CallChain) (cd : List CallStack) (d : Nat)
      (T : List CallChain),
    (∀ cs ∈ css, cs ∈ (g.node c.f).callSites ∧ seen2.contains cs.parent = false) →
    FoldState g entriesL skipL sink c queue₀ (q, cd, d) T →
    ∃ T2, FoldState g entriesL skipL sink c queue₀
        (processSites entriesL skipL c css q cd d) T2
      ∧ T2.length ≤ T.length + css.length
      ∧ (∀ s ∈ cd, s ∈ (processSites entriesL skipL c css q cd d).2.1)
      ∧ (∀ t ∈ q, t ∈ (processSites entriesL skipL c css q cd d).1
          ∨ ∃ s ∈ (processSites entriesL skipL c css q cd d).2.1, s.length ≤ c.len + 1)
      ∧ (∀ cs ∈ css, skipL.contains cs.parent = false →
          (∃ t ∈ (processSites entriesL skipL c css q cd d).1,
            t.f = cs.parent ∧ t.len = c.len + 1)
          ∨ ∃ s ∈ (processSites entriesL skipL c css q cd d).2.1, s.length ≤ c.len + 1)
      ∧ (∀ cs ∈ css, cs.parent ∈ entriesL →
          ∃ s ∈ (processSites entriesL skipL c css q cd d).2.1, s.length ≤ c.len + 1) := by
  intro css
  induction css with
  | nil =>
    intro q cd d T _ hfs
    exact ⟨T, hfs, by simp, fun s hs => hs, fun t ht => Or.inl ht, by simp, by simp⟩
  | cons cs rest ih =>
    intro q cd d T hcss hfs
    obtain ⟨hcs, hnv⟩ := hcss cs (List.mem_cons_self cs rest)
    have hrest : ∀ cs' ∈ rest, cs' ∈ (g.node c.f).callSites ∧ seen2.contains cs'.parent = false :=
      fun cs' h => hcss cs' (List.mem_cons_of_mem cs h)
    obtain ⟨hshape, hT, hunif, hcok, hlowb⟩ := hfs
    simp only at hshape hunif hlowb
    have hnslen : (CallChain.stack
        { call := some cs, f := cs.parent, child := (c.call, c.f) :: c.child }).length
        = c.len + 1 := by
      rw [chain_stack_length, nStack_len]
    simp only [processSites]
    by_cases hE : entriesL.contains cs.parent = true
    · rw [if_pos hE]
      by_cases hA : cd.isEmpty = true ∨ (CallChain.stack
          { call := some cs, f := cs.parent, child := (c.call, c.f) :: c.child }).length = d
      · rw [if_pos hA]
        -- the candidate is appended
        have hcdsub : ∀ s ∈ cd, s ∈ cd ++ [CallChain.stack
            { call := some cs, f := cs.parent, child := (c.call, c.f) :: c.child }] :=
          fun s hs => List.mem_append_left _ hs
        have hnsmem : CallChain.stack
            { call := some cs, f := cs.parent, child := (c.call, c.f) :: c.child } ∈ cd ++
            [CallChain.stack { call := some cs, f := cs.parent, child := (c.call, c.f) :: c.child }] :=
          List.mem_append_right _ (List.mem_singleton.mpr rfl)
        have hesc1 : ∃ s ∈ cd ++ [CallChain.stack
            { call := some cs, f := cs.parent, child := (c.call, c.f) :: c.child }],
            s.length ≤ c.len + 1 := ⟨_, hnsmem, le_of_eq hnslen⟩
        have hunif1 : ∀ s ∈ cd ++ [CallChain.stack
            { call := some cs, f := cs.parent, child := (c.call, c.f) :: c.child }],
            s.length = (CallChain.stack
              { call := some cs, f := cs.parent, child := (c.call, c.f) :: c.child }).length := by
          intro s hs
          rcases List.mem_append.mp hs with h | h
          · rcases hA with hA | hA
            · exact absurd (List.isEmpty_iff.mp hA ▸ h) (List.not_mem_nil s)
            · rw [hunif s h, hA]
          · rw [List.mem_singleton.mp h]
        have hcok1 : ∀ s ∈ cd ++ [CallChain.stack
            { call := some cs, f := cs.parent, child := (c.call, c.f) :: c.child }],
            CandidateOK g entriesL skipL sink s := by
          intro s hs
          rcases List.mem_append.mp hs with h | h
          · exact hcok s h
          · rw [List.mem_singleton.mp h]
            exact nStack_candidateOK g entriesL skipL sink cs c seen2 hcwf hcskip hcsink
              hsinkseen hcs hnv (contains_iff_mem entriesL cs.parent |>.mp hE)
        by_cases hP : skipL.contains cs.parent = true
        · rw [if_pos hP]
          have hfs1 : FoldState g entriesL skipL sink c queue₀
              (q, cd ++ [CallChain.stack
                { call := some cs, f := cs.parent, child := (c.call, c.f) :: c.child }],
                (CallChain.stack
                  { call := some cs, f := cs.parent, child := (c.call, c.f) :: c.child }).length) T := by
            refine ⟨?_, ?_, hunif1, hcok1, fun _ => le_of_eq hnslen⟩
            · rcases hshape with h | h
              · exact Or.inl h
              · exact Or.inr ⟨h.1, hesc1⟩
            · exact fun t ht => chainProps_mono g entriesL skipL sink c cd _ t hcdsub (hT t ht)
          obtain ⟨T2, i1, i2, i3, i4, i5, i6⟩ := ih q _ _ T hrest hfs1
          refine ⟨T2, i1, by simp only [List.length_cons]; omega, ?_, i4, ?_, ?_⟩
          · exact fun s hs => i3 s (hcdsub s hs)
          · intro cs' hm hps
            rcases List.mem_cons.mp hm with h | h
            · rw [h] at hps; rw [hps] at hP; exact absurd hP (by simp)
            · exact i5 cs' h hps
          · intro cs' hm hpe
            rcases List.mem_cons.mp hm with h | h
            · obtain ⟨s, hs1, hs2⟩ := hesc1
              exact ⟨s, i3 s hs1, hs2⟩
            · exact i6 cs' h hpe
        · rw [if_neg hP]
          have hP2 : skipL.contains cs.parent = false := by
            cases h2 : skipL.contains cs.parent
            · rfl
            · exact absurd h2 hP
          have hfs1 : FoldState g entriesL skipL sink c queue₀
              (q ++ [{ call := some cs, f := cs.parent, child := (c.call, c.f) :: c.child }],
                cd ++ [CallChain.stack
                  { call := some cs, f := cs.parent, child := (c.call, c.f) :: c.child }],
                (CallChain.stack
                  { call := some cs, f := cs.parent, child := (c.call, c.f) :: c.child }).length)
              (T ++ [{ call := some cs, f := cs.parent, child := (c.call, c.f) :: c.child }]) := by
            refine ⟨?_, ?_, hunif1, hcok1, fun _ => le_of_eq hnslen⟩
            · rcases hshape with h | h
              · exact Or.inl (by rw [h, List.append_assoc])
              · exact Or.inr ⟨by rw [h.1], hesc1⟩
            · intro t ht
              rcases List.mem_append.mp ht with h | h
              · exact chainProps_mono g entriesL skipL sink c cd _ t hcdsub (hT t h)
              · rw [List.mem_singleton.mp h]
                refine nStack_chainProps g entriesL skipL sink cs c seen2 _ hcwf hcskip hcsink
                  hsinkseen hcs hnv hP2 (fun _ => ?_)
                obtain ⟨s, hs1, hs2⟩ := hesc1
                exact ⟨s, hs1, hs2⟩
          obtain ⟨T2, i1, i2, i3, i4, i5, i6⟩ := ih _ _ _ _ hrest hfs1
          refine ⟨T2, i1, ?_, ?_, ?_, ?_, ?_⟩
          · simp only [List.length_append, List.length_singleton, List.length_cons,
              List.length_nil] at i2 ⊢
            omega
          · exact fun s hs => i3 s (hcdsub s hs)
          · exact fun t ht => i4 t (List.mem_append_left _ ht)
          · intro cs' hm hps
            rcases List.mem_cons.mp hm with h | h
            · cases h
              rcases i4 _ (List.mem_append_right _ (List.mem_singleton.mpr rfl)) with h2 | h2
              · exact Or.inl ⟨_, h2, rfl, nStack_len cs c⟩
              · exact Or.inr h2
            · exact i5 cs' h hps
          · intro cs' hm hpe
            rcases List.mem_cons.mp hm with h | h
            · obtain ⟨s, hs1, hs2⟩ := hesc1
              exact ⟨s, i3 s hs1, hs2⟩
            · exact i6 cs' h hpe
      · rw [if_neg hA]
        -- queue.Init: a strictly shorter candidate already exists
        push_neg at hA
        have hcdne : cd ≠ [] := by
          intro h0
          rw [h0] at hA
          exact absurd (by simp : ([] : List CallStack).isEmpty = true) (by simpa using hA.1)
        have hdlt : d ≤ c.len + 1 := hlowb hcdne
        have hdne : d ≠ c.len + 1 := by
          intro h0
          exact hA.2 (by rw [hnslen, h0])
        have hesc : ∃ s ∈ cd, s.length ≤ c.len + 1 := by
          cases cd with
          | nil => exact absurd rfl hcdne
          | cons s t =>
            exact ⟨s, List.mem_cons_self s t, by rw [hunif s (List.mem_cons_self s t)]; omega⟩
        have hfs1 : FoldState g entriesL skipL sink c queue₀ ([], cd, d) [] := by
          refine ⟨Or.inr ⟨rfl, hesc⟩, by simp, hunif, hcok, hlowb⟩
        obtain ⟨T2, i1, i2, i3, i4, i5, i6⟩ := ih [] cd d [] hrest hfs1
        have hescf : ∃ s ∈ (processSites entriesL skipL c rest [] cd d).2.1,
            s.length ≤ c.len + 1 := by
          obtain ⟨s, hs1, hs2⟩ := hesc
          exact ⟨s, i3 s hs1, hs2⟩
        refine ⟨T2, i1, by simp only [List.length_nil, List.length_cons] at i2 ⊢; omega, i3,
          fun t ht => Or.inr hescf, ?_, ?_⟩
        · intro cs' hm hps
          rcases List.mem_cons.mp hm with h | h
          · exact Or.inr hescf
          · exact i5 cs' h hps
        · intro cs' hm hpe
          rcases List.mem_cons.mp hm with h | h
          · exact hescf
          · exact i6 cs' h hpe
    · rw [if_neg hE]
      have hE2 : cs.parent ∉ entriesL := by
        intro h0
        exact hE ((contains_iff_mem entriesL cs.parent).mpr h0)
      by_cases hP : skipL.contains cs.parent = true
      · rw [if_pos hP]
        obtain ⟨T2, i1, i2, i3, i4, i5, i6⟩ := ih q cd d T hrest ⟨hshape, hT, hunif, hcok, hlowb⟩
        refine ⟨T2, i1, by simp only [List.length_cons]; omega, i3, i4, ?_, ?_⟩
        · intro cs' hm hps
          rcases List.mem_cons.mp hm with h | h
          · rw [h] at hps; rw [hps] at hP; exact absurd hP (by simp)
          · exact i5 cs' h hps
        · intro cs' hm hpe
          rcases List.mem_cons.mp hm with h | h
          · exact absurd (h ▸ hpe) hE2
          · exact i6 cs' h hpe
      · rw [if_neg hP]
        have hP2 : skipL.contains cs.parent = false := by
          cases h2 : skipL.contains cs.parent
          · rfl
          · exact absurd h2 hP
        have hfs1 : FoldState g entriesL skipL sink c queue₀
            (q ++ [{ call := some cs, f := cs.parent, child := (c.call, c.f) :: c.child }], cd, d)
            (T ++ [{ call := some cs, f := cs.parent, child := (c.call, c.f) :: c.child }]) := by
          refine ⟨?_, ?_, hunif, hcok, hlowb⟩
          · rcases hshape with h | h
            · exact Or.inl (by rw [h, List.append_assoc])
            · exact Or.inr ⟨by rw [h.1], h.2⟩
          · intro t ht
            rcases List.mem_append.mp ht with h | h
            · exact hT t h
            · rw [List.mem_singleton.mp h]
              exact nStack_chainProps g entriesL skipL sink cs c seen2 _ hcwf hcskip hcsink
                hsinkseen hcs hnv hP2 (fun h0 => absurd h0 hE2)
        obtain ⟨T2, i1, i2, i3, i4, i5, i6⟩ := ih _ _ _ _ hrest hfs1
        refine ⟨T2, i1, ?_, i3, ?_, ?_, ?_⟩
        · simp only [List.length_append, List.length_singleton, List.length_cons,
            List.length_nil] at i2 ⊢
          omega
        · exact fun t ht => i4 t (List.mem_append_left _ ht)
        · intro cs' hm hps
          rcases List.mem_cons.mp hm with h | h
          · cases h
            rcases i4 _ (List.mem_append_right _ (List.mem_singleton.mpr rfl)) with h2 | h2
            · exact Or.inl ⟨_, h2, rfl, nStack_len cs c⟩
            · exact Or.inr h2
          · exact i5 cs' h hps
        · intro cs' hm hpe
          rcases List.mem_cons.mp hm with h | h
          · exact absurd (h ▸ hpe) hE2
          · exact i6 cs' h hpe

theorem bfs_step (g : CallGraph) (π : List Nat → List Nat) (entriesL skipL : List Nat)
    (sink : Nat) (c : CallChain) (rest : List CallChain) (seen : List Nat)
    (cands : List CallStack) (d : Nat)
    (hwf : ∀ t ∈ c :: rest, StacksTo g sink (CallChain.stack t))
    (hskip : ∀ t ∈ c :: rest, ∀ x ∈ (stackIds (CallChain.stack t)).dropLast, x ∉ skipL)
    (hsink : ∀ t ∈ c :: rest, sink ∉ (stackIds (CallChain.stack t)).dropLast)
    (hmono : (c :: rest).Pairwise (fun a b => a.len ≤ b.len ∧ b.len ≤ a.len + 1))
    (hunif : ∀ s ∈ cands, s.length = d)
    (hlowb : cands ≠ [] → ∀ t ∈ c :: rest, d ≤ t.len + 1)
    (hentrec : ∀ t ∈ rest, t.f ∈ entriesL → ∃ s ∈ cands, s.length ≤ t.len)
    (hcok : ∀ s ∈ cands, CandidateOK g entriesL skipL sink s)
    (hsinkseen2 : sink ∈ c.f :: seen) :
    BfsInv g entriesL skipL sink
      (processSites entriesL skipL c
        (callsites g (g.node c.f).callSites (c.f :: seen) π) rest cands d).1
      (c.f :: seen)
      (processSites entriesL skipL c
        (callsites g (g.node c.f).callSites (c.f :: seen) π) rest cands d).2.1
      (processSites entriesL skipL c
        (callsites g (g.node c.f).callSites (c.f :: seen) π) rest cands d).2.2
    ∧ (∀ s ∈ cands, s ∈ (processSites entriesL skipL c
        (callsites g (g.node c.f).callSites (c.f :: seen) π) rest cands d).2.1)
    ∧ (∀ t ∈ rest, t ∈ (processSites entriesL skipL c
          (callsites g (g.node c.f).callSites (c.f :: seen) π) rest cands d).1
        ∨ ∃ s ∈ (processSites entriesL skipL c
            (callsites g (g.node c.f).callSites (c.f :: seen) π) rest cands d).2.1,
          s.length ≤ c.len + 1)
    ∧ (∀ cs ∈ callsites g (g.node c.f).callSites (c.f :: seen) π,
        skipL.contains cs.parent = false →
        (∃ t ∈ (processSites entriesL skipL c
            (callsites g (g.node c.f).callSites (c.f :: seen) π) rest cands d).1,
          t.f = cs.parent ∧ t.len = c.len + 1)
        ∨ ∃ s ∈ (processSites entriesL skipL c
            (callsites g (g.node c.f).callSites (c.f :: seen) π) rest cands d).2.1,
          s.length ≤ c.len + 1)
    ∧ (∀ cs ∈ callsites g (g.node c.f).callSites (c.f :: seen) π, cs.parent ∈ entriesL →
        ∃ s ∈ (processSites entriesL skipL c
            (callsites g (g.node c.f).callSites (c.f :: seen) π) rest cands d).2.1,
          s.length ≤ c.len + 1)
    ∧ (processSites entriesL skipL c
        (callsites g (g.node c.f).callSites (c.f :: seen) π) rest cands d).1.length
      ≤ rest.length + (callsites g (g.node c.f).callSites (c.f :: seen) π).length := by
  have hchd : c ∈ c :: rest := List.mem_cons_self c rest
  have hcwf := hwf c hchd
  have hcskip := hskip c hchd
  have hcsink := hsink c hchd
  have hcss := callsites_sound g (g.node c.f).callSites (c.f :: seen) π
  have hwin : ∀ b ∈ rest, c.len ≤ b.len ∧ b.len ≤ c.len + 1 := (List.pairwise_cons.mp hmono).1
  have hmrest : rest.Pairwise (fun a b => a.len ≤ b.len ∧ b.len ≤ a.len + 1) :=
    (List.pairwise_cons.mp hmono).2
  have hfs0 : FoldState g entriesL skipL sink c rest (rest, cands, d) [] := by
    refine ⟨Or.inl (by simp), by simp, hunif, hcok, fun h => hlowb h c hchd⟩
  obtain ⟨T2, ⟨oshape, oT, ounif, ocok, olowb⟩, hlen2, i3, i4, i5, i6⟩ :=
    processSites_go g entriesL skipL sink c (c.f :: seen) rest hcwf hcskip hcsink hsinkseen2
      (callsites g (g.node c.f).callSites (c.f :: seen) π) rest cands d [] hcss hfs0
  simp only [List.length_nil, Nat.zero_add] at hlen2
  have hmemsplit : ∀ t ∈ (processSites entriesL skipL c
      (callsites g (g.node c.f).callSites (c.f :: seen) π) rest cands d).1,
      t ∈ rest ∨ t ∈ T2 := by
    intro t ht
    rcases oshape with hsh | hsh
    · rw [hsh] at ht
      exact List.mem_append.mp ht
    · rw [hsh.1] at ht
      exact Or.inr ht
  refine ⟨⟨?_, ?_, ?_, ?_, ounif, ?_, ?_, ocok, hsinkseen2⟩, i3, i4, i5, i6, ?_⟩
  · intro t ht
    rcases hmemsplit t ht with h | h
    · exact hwf t (List.mem_cons_of_mem c h)
    · exact (oT t h).2.1
  · intro t ht
    rcases hmemsplit t ht with h | h
    · exact hskip t (List.mem_cons_of_mem c h)
    · exact (oT t h).2.2.1
  · intro t ht
    rcases hmemsplit t ht with h | h
    · exact hsink t (List.mem_cons_of_mem c h)
    · exact (oT t h).2.2.2.1
  · have hT2pw : T2.Pairwise (fun a b => a.len ≤ b.len ∧ b.len ≤ a.len + 1) := by
      refine List.pairwise_of_forall_mem_list ?_
      intro a ha b hb
      rw [(oT a ha).1, (oT b hb).1]
      omega
    rcases oshape with hsh | hsh
    · rw [hsh]
      rw [List.pairwise_append]
      refine ⟨hmrest, hT2pw, ?_⟩
      intro a ha b hb
      have h1 := hwin a ha
      have h2 := (oT b hb).1
      omega
    · rw [hsh.1]
      exact hT2pw
  · intro hne t ht
    have hd2 := olowb hne
    rcases hmemsplit t ht with h | h
    · have := (hwin t h).1
      omega
    · have := (oT t h).1
      omega
  · intro t ht hE
    rcases hmemsplit t ht with h | h
    · obtain ⟨s, hs1, hs2⟩ := hentrec t h hE
      exact ⟨s, i3 s hs1, hs2⟩
    · exact (oT t h).2.2.2.2 hE
  · rcases oshape with hsh | hsh
    · rw [hsh]
      simp only [List.length_append]
      omega
    · rw [hsh.1]
      omega

theorem processSites_cands_mono (entriesL skipL : List Nat) (c : CallChain) :
    ∀ (css : List CallSite) (q : List CallChain) (cd : List CallStack) (d : Nat),
    ∀ s ∈ cd, s ∈ (processSites entriesL skipL c css q cd d).2.1 := by
  intro css
  induction css with
  | nil => intro q cd d s hs; exact hs
  | cons cs rest ih =>
    intro q cd d s hs
    simp only [processSites]
    by_cases hE : entriesL.contains cs.parent = true
    · rw [if_pos hE]
      by_cases hA : cd.isEmpty = true ∨ (CallChain.stack
          { call := some cs, f := cs.parent, child := (c.call, c.f) :: c.child }).length = d
      · rw [if_pos hA]
        exact ih _ _ _ s (List.mem_append_left _ hs)
      · rw [if_neg hA]
        exact ih _ _ _ s hs
    · rw [if_neg hE]
      exact ih _ _ _ s hs

theorem bfsInv_tail (g : CallGraph) (entriesL skipL : List Nat) (sink : Nat)
    (c : CallChain) (rest : List CallChain) (seen : List Nat) (cands : List CallStack) (d : Nat)
    (h : BfsInv g entriesL skipL sink (c :: rest) seen cands d) :
    BfsInv g entriesL skipL sink rest seen cands d := by
  obtain ⟨h1, h2, h3, h4, h5, h6, h7, h8, h9⟩ := h
  exact ⟨fun t ht => h1 t (List.mem_cons_of_mem c ht),
    fun t ht => h2 t (List.mem_cons_of_mem c ht),
    fun t ht => h3 t (List.mem_cons_of_mem c ht),
    (List.pairwise_cons.mp h4).2, h5,
    fun hne t ht => h6 hne t (List.mem_cons_of_mem c ht),
    fun t ht => h7 t (List.mem_cons_of_mem c ht), h8, h9⟩

theorem bfs_cands_mono (g : CallGraph) (π : List Nat → List Nat) (entriesL skipL : List Nat) :
    ∀ (fuel : Nat) (queue : List CallChain) (seen : List Nat) (cands : List CallStack) (d : Nat),
    ∀ s ∈ cands, s ∈ bfsLoop g π entriesL skipL fuel queue seen cands d := by
  intro fuel
  induction fuel with
  | zero => intro queue seen cands d s hs; exact hs
  | succ n ih =>
    intro queue seen cands d s hs
    cases queue with
    | nil => exact hs
    | cons c rest =>
      simp only [bfsLoop]
      by_cases hsn : seen.contains c.f = true
      · rw [if_pos hsn]
        exact ih _ _ _ _ s hs
      · rw [if_neg hsn]
        exact ih _ _ _ _ s (processSites_cands_mono entriesL skipL c _ _ _ _ s hs)

theorem bfs_sound (g : CallGraph) (π : List Nat → List Nat) (entriesL skipL : List Nat)
    (sink : Nat) :
    ∀ (fuel : Nat) (queue : List CallChain) (seen : List Nat) (cands : List CallStack) (d : Nat),
    BfsInv g entriesL skipL sink queue seen cands d →
    ∃ dfin, ∀ s ∈ bfsLoop g π entriesL skipL fuel queue seen cands d,
      CandidateOK g entriesL skipL sink s ∧ s.length = dfin := by
  intro fuel
  induction fuel with
  | zero =>
    intro queue seen cands d hinv
    exact ⟨d, fun s hs => ⟨hinv.2.2.2.2.2.2.2.1 s hs, hinv.2.2.2.2.1 s hs⟩⟩
  | succ n ih =>
    intro queue seen cands d hinv
    cases queue with
    | nil =>
      exact ⟨d, fun s hs => ⟨hinv.2.2.2.2.2.2.2.1 s hs, hinv.2.2.2.2.1 s hs⟩⟩
    | cons c rest =>
      simp only [bfsLoop]
      by_cases hsn : seen.contains c.f = true
      · rw [if_pos hsn]
        exact ih _ _ _ _ (bfsInv_tail g entriesL skipL sink c rest seen cands d hinv)
      · rw [if_neg hsn]
        obtain ⟨h1, h2, h3, h4, h5, h6, h7, h8, h9⟩ := hinv
        exact ih _ _ _ _ (bfs_step g π entriesL skipL sink c rest seen cands d
          h1 h2 h3 h4 h5 h6 (fun t ht => h7 t (List.mem_cons_of_mem c ht)) h8
          (List.mem_cons_of_mem _ h9)).1

theorem initChain_wf (g : CallGraph) (sink : Nat) :
    StacksTo g sink (CallChain.stack { call := none, f := sink, child := [] }) := by
  show StacksTo g sink [{ function := sink, call := none }]
  exact ⟨rfl, rfl⟩

theorem initChain_ids (sink : Nat) :
    stackIds (CallChain.stack { call := none, f := sink, child := [] }) = [sink] := rfl

theorem searchFuel_pos (res : Result) : 1 ≤ searchFuel res := by
  unfold searchFuel
  omega

theorem candidates_sound (vuln : Vuln) (res : Result) (π : List Nat → List Nat) (sink : Nat)
    (hsink : vuln.callSink = some sink) :
    ∃ dfin, ∀ s ∈ callStackCandidates vuln res π,
      CandidateOK res.callGraph res.entryFunctions (skipSymbols vuln res) sink s
      ∧ s.length = dfin := by
  unfold callStackCandidates
  rw [hsink]
  cases hf : searchFuel res with
  | zero => exact absurd (hf ▸ searchFuel_pos res) (by omega)
  | succ n =>
    simp only [bfsLoop]
    rw [if_neg (by simp : ¬(List.contains [] (CallChain.f { call := none, f := sink, child := [] }) = true))]
    refine bfs_sound res.callGraph π res.entryFunctions (skipSymbols vuln res) sink n _ _ _ _ ?_
    refine (bfs_step res.callGraph π res.entryFunctions (skipSymbols vuln res) sink
      { call := none, f := sink, child := [] } [] [] [] 0
      ?_ ?_ ?_ ?_ ?_ ?_ ?_ ?_ ?_).1
    · intro t ht
      rw [List.mem_singleton.mp ht]
      exact initChain_wf res.callGraph sink
    · intro t ht
      rw [List.mem_singleton.mp ht, initChain_ids]
      simp
    · intro t ht
      rw [List.mem_singleton.mp ht, initChain_ids]
      simp
    · exact List.pairwise_singleton _ _
    · intro s hs
      exact absurd hs (List.not_mem_nil s)
    · intro h
      exact absurd rfl h
    · intro t ht
      exact absurd ht (List.not_mem_nil t)
    · intro s hs
      exact absurd hs (List.not_mem_nil s)
    · exact List.mem_cons_self sink []

theorem stackIds_head (s : CallStack) :
    (stackIds s).head? = s.head?.map (fun e => e.function) := by
  cases s with
  | nil => rfl
  | cons e t => rfl

theorem candidateOK_witnessPath (vuln : Vuln) (res : Result) (sink : Nat) (s : CallStack)
    (h : CandidateOK res.callGraph res.entryFunctions (skipSymbols vuln res) sink s) :
    WitnessPathUnique vuln res sink (stackIds s) := by
  obtain ⟨h1, h2, h3, h4, h5⟩ := h
  refine ⟨⟨?_, ⟨h3, stacksTo_last_sink _ _ _ h1, stacksTo_chain _ _ _ h1⟩, h5⟩, h4⟩
  rw [stackIds_length]
  exact h2

theorem callStack_some_sink (vuln : Vuln) (res : Result) (π : List Nat → List Nat)
    (s : CallStack) (h : callStack vuln res π = some s) :
    ∃ sink, vuln.callSink = some sink := by
  unfold callStack at h
  cases hs : vuln.callSink with
  | none => rw [hs] at h; exact absurd h (by simp)
  | some sink => exact ⟨sink, rfl⟩

theorem callStack_mem_candidates (vuln : Vuln) (res : Result) (π : List Nat → List Nat)
    (s : CallStack) (h : callStack vuln res π = some s) :
    s ∈ callStackCandidates vuln res π := by
  unfold callStack at h
  cases hs : vuln.callSink with
  | none => rw [hs] at h; exact absurd h (by simp)
  | some sink =>
    rw [hs] at h
    exact sortGo_head_mem stackLess _ s h

theorem callStack_weight_min (vuln : Vuln) (res : Result) (π : List Nat → List Nat)
    (s : CallStack) (h : callStack vuln res π = some s) :
    ∀ t ∈ callStackCandidates vuln res π, weight s ≤ weight t := by
  unfold callStack at h
  cases hs : vuln.callSink with
  | none => rw [hs] at h; exact absurd h (by simp)
  | some sink =>
    rw [hs] at h
    exact sortGo_stackLess_min _ s h

theorem callStack_candidateOK (vuln : Vuln) (res : Result) (π : List Nat → List Nat)
    (sink : Nat) (s : CallStack)
    (hsink : vuln.callSink = some sink)
    (h : callStack vuln res π = some s) :
    CandidateOK res.callGraph res.entryFunctions (skipSymbols vuln res) sink s := by
  obtain ⟨dfin, hd⟩ := candidates_sound vuln res π sink hsink
  exact (hd s (callStack_mem_candidates vuln res π s h)).1

theorem skipSymbols_mem (vuln v2 : Vuln) (res : Result) (x : Nat)
    (hv2 : v2 ∈ res.vulns) (hne : v2.id ≠ vuln.id) (hosv : v2.osv = vuln.osv)
    (himp : v2.importSink = vuln.importSink) (hx : v2.callSink = some x) :
    x ∈ skipSymbols vuln res := by
  unfold skipSymbols
  rw [List.mem_filterMap]
  refine ⟨v2, ?_, hx⟩
  rw [List.mem_filter]
  refine ⟨hv2, ?_⟩
  simp only [Bool.and_eq_true, Bool.not_eq_true', beq_eq_false_iff_ne, ne_eq, beq_iff_eq]
  exact ⟨⟨⟨by simp [hx], hne⟩, hosv⟩, himp⟩

/-! ### Fuel accounting -/

theorem unseen_sum_mono (a : Nat) (seen : List Nat) :
    ∀ (fns : List (Nat × FuncNode)),
    ((fns.filter (fun e => !((a :: seen).contains e.1))).map
      (fun e => e.2.callSites.length)).sum
    ≤ ((fns.filter (fun e => !(seen.contains e.1))).map
      (fun e => e.2.callSites.length)).sum := by
  intro fns
  induction fns with
  | nil => simp
  | cons e fns ih =>
    cases h1 : (a :: seen).contains e.1 with
    | true =>
      rw [List.filter_cons_of_neg (by rw [h1]; decide)]
      cases h2 : seen.contains e.1 with
      | true =>
        rw [List.filter_cons_of_neg (by rw [h2]; decide)]
        exact ih
      | false =>
        rw [List.filter_cons_of_pos (by rw [h2]; decide)]
        simp only [List.map_cons, List.sum_cons]
        omega
    | false =>
      have h2 : seen.contains e.1 = false := by
        rw [List.contains_cons] at h1
        cases hx : (e.1 == a) with
        | true => rw [hx] at h1; simp at h1
        | false =>
          cases hy : seen.contains e.1 with
          | true => rw [hx, hy] at h1; simp at h1
          | false => rfl
      rw [List.filter_cons_of_pos (by rw [h1]; decide),
        List.filter_cons_of_pos (by rw [h2]; decide)]
      simp only [List.map_cons, List.sum_cons]
      omega

theorem unseen_sum_cons (a : Nat) (seen : List Nat) (h : seen.contains a = false) :
    ∀ (fns : List (Nat × FuncNode)),
    ((fns.filter (fun e => !((a :: seen).contains e.1))).map
      (fun e => e.2.callSites.length)).sum
    + (match fns.find? (fun e => e.1 == a) with
       | some e => e.2.callSites.length
       | none => 0)
    ≤ ((fns.filter (fun e => !(seen.contains e.1))).map
      (fun e => e.2.callSites.length)).sum := by
  intro fns
  induction fns with
  | nil => simp
  | cons e fns ih =>
    cases hea : (e.1 == a) with
    | true =>
      have hea2 : e.1 = a := by simpa using hea
      have hka : ((a :: seen).contains e.1) = true := by
        rw [List.contains_cons, hea]
        simp
      have hks : (seen.contains e.1) = false := by rw [hea2]; exact h
      simp only [List.find?_cons, hea]
      rw [List.filter_cons_of_neg (by rw [hka]; decide),
        List.filter_cons_of_pos (by rw [hks]; decide)]
      simp only [List.map_cons, List.sum_cons]
      have hmono := unseen_sum_mono a seen fns
      omega
    | false =>
      have hsame : ((a :: seen).contains e.1) = (seen.contains e.1) := by
        rw [List.contains_cons, hea]
        simp
      simp only [List.find?_cons, hea]
      cases hc : seen.contains e.1 with
      | true =>
        rw [List.filter_cons_of_neg (by rw [hsame, hc]; decide),
          List.filter_cons_of_neg (by rw [hc]; decide)]
        exact ih
      | false =>
        rw [List.filter_cons_of_pos (by rw [hsame, hc]; decide),
          List.filter_cons_of_pos (by rw [hc]; decide)]
        simp only [List.map_cons, List.sum_cons]
        omega

theorem unseenSites_cons (g : CallGraph) (a : Nat) (seen : List Nat)
    (h : seen.contains a = false) :
    unseenSites g (a :: seen) + (g.node a).callSites.length ≤ unseenSites g seen := by
  have haux := unseen_sum_cons a seen h g.functions
  unfold unseenSites CallGraph.node
  cases hf : g.functions.find? (fun e => e.1 == a) with
  | none =>
    rw [hf] at haux
    simpa using haux
  | some e =>
    rw [hf] at haux
    exact haux

/-! ### Path splitting helpers -/

theorem getLast_append_cons (A : List Nat) (c0 : Nat) (B : List Nat) (hB : B ≠ []) :
    (A ++ c0 :: B).getLast? = B.getLast? := by
  rw [List.getLast?_append_of_ne_nil A (by simp)]
  rw [show c0 :: B = [c0] ++ B from rfl, List.getLast?_append_of_ne_nil [c0] hB]

theorem mem_dropLast_append_cons (A : List Nat) (c0 : Nat) (B : List Nat) (hB : B ≠ [])
    (x : Nat) (hx : x ∈ B.dropLast) : x ∈ (A ++ c0 :: B).dropLast := by
  rw [List.dropLast_append_of_ne_nil A (by simp), List.dropLast_cons_of_ne_nil hB]
  exact List.mem_append_right _ (List.mem_cons_of_mem c0 hx)

theorem head_mem_dropLast_append (A : List Nat) (c0 x : Nat) (B : List Nat) (hB : B ≠ []) :
    x ∈ (A ++ c0 :: x :: B).dropLast := by
  refine mem_dropLast_append_cons A c0 (x :: B) (by simp) x ?_
  rw [List.dropLast_cons_of_ne_nil hB]
  exact List.mem_cons_self x B.dropLast

theorem not_mem_of_contains_false (l : List Nat) (a : Nat) (h : a ∉ l) :
    l.contains a = false := by
  cases hc : l.contains a with
  | false => rfl
  | true => exact absurd ((contains_iff_mem l a).mp hc) h

theorem bfs_complete (g : CallGraph) (π : List Nat → List Nat) (entriesL skipL : List Nat)
    (sink : Nat) (Hπ : ∀ l : List Nat, (π l).Perm l) (M : Nat) (E : Nat) (hE : E ∈ entriesL) :
    ∀ (fuel : Nat) (queue : List CallChain) (seen : List Nat) (cands : List CallStack)
      (d : Nat) (r0 : Nat) (R : List Nat),
    BfsInv g entriesL skipL sink queue seen cands d →
    queue.length + unseenSites g seen ≤ fuel →
    ((∃ s ∈ cands, s.length ≤ M) ∨
      ((r0 :: R).getLast? = some E
        ∧ List.Chain' (fun a b => calls g b a) (r0 :: R)
        ∧ (∀ x ∈ (r0 :: R).dropLast, x ∉ skipL)
        ∧ (∀ x ∈ r0 :: R, x ≠ sink)
        ∧ (r0 :: R).Nodup
        ∧ (∀ x ∈ r0 :: R, x ∉ seen)
        ∧ (∃ t ∈ queue, t.f = r0 ∧ t.len + R.length + 1 ≤ M + 1))) →
    ∃ s ∈ bfsLoop g π entriesL skipL fuel queue seen cands d, s.length ≤ M := by
  intro fuel
  induction fuel with
  | zero =>
    intro queue seen cands d r0 R hinv hfuel hdisj
    have hq0 : queue = [] := by
      cases queue with
      | nil => rfl
      | cons a b => simp only [List.length_cons] at hfuel; omega
    subst hq0
    rcases hdisj with ⟨s, hs, hl⟩ | ⟨_, _, _, _, _, _, t, htq, _⟩
    · exact ⟨s, hs, hl⟩
    · exact absurd htq (List.not_mem_nil t)
  | succ n ih =>
    intro queue seen cands d r0 R hinv hfuel hdisj
    rcases hdisj with ⟨s, hs, hl⟩ | ⟨hlast, hchain, hskipR, hsinkR, hnd, hseenR, t, htq, htf, htlen⟩
    · exact ⟨s, bfs_cands_mono g π entriesL skipL (n+1) queue seen cands d s hs, hl⟩
    cases queue with
    | nil => exact absurd htq (List.not_mem_nil t)
    | cons c₀ rest =>
      obtain ⟨h1, h2, h3, h4, h5, h6, h7, h8, h9⟩ := hinv
      have hfrontmin : c₀.len ≤ t.len := by
        rcases List.mem_cons.mp htq with he | he
        · rw [he]
        · exact ((List.pairwise_cons.mp h4).1 t he).1
      cases R with
      | nil =>
        have hr0E : r0 = E := by simpa using hlast
        obtain ⟨s, hs, hl⟩ := h7 t htq (by rw [htf, hr0E]; exact hE)
        refine ⟨s, bfs_cands_mono g π entriesL skipL (n+1) _ _ _ _ s hs, ?_⟩
        simp only [List.length_nil] at htlen
        omega
      | cons r1 R' =>
        simp only [bfsLoop]
        by_cases hsn : seen.contains c₀.f = true
        · rw [if_pos hsn]
          have htrest : t ∈ rest := by
            rcases List.mem_cons.mp htq with he | he
            · exfalso
              have hr0s : r0 ∉ seen := hseenR r0 (List.mem_cons_self _ _)
              rw [← htf, he] at hr0s
              exact hr0s ((contains_iff_mem seen c₀.f).mp hsn)
            · exact he
          refine ih rest seen cands d r0 (r1 :: R')
            (bfsInv_tail g entriesL skipL sink c₀ rest seen cands d
              ⟨h1, h2, h3, h4, h5, h6, h7, h8, h9⟩)
            (by simp only [List.length_cons] at hfuel; omega)
            (Or.inr ⟨hlast, hchain, hskipR, hsinkR, hnd, hseenR, t, htrest, htf, htlen⟩)
        · rw [if_neg hsn]
          obtain ⟨stInv, i3, i4, i5, i6, i7⟩ := bfs_step g π entriesL skipL sink c₀ rest seen
            cands d h1 h2 h3 h4 h5 h6
            (fun t2 ht2 => h7 t2 (List.mem_cons_of_mem c₀ ht2)) h8
            (List.mem_cons_of_mem _ h9)
          have hcontf : seen.contains c₀.f = false := by
            cases hc : seen.contains c₀.f
            · rfl
            · exact absurd hc hsn
          have hfuel2 : (processSites entriesL skipL c₀
              (callsites g (g.node c₀.f).callSites (c₀.f :: seen) π) rest cands d).1.length
              + unseenSites g (c₀.f :: seen) ≤ n := by
            have hcl := callsites_length g (g.node c₀.f).callSites (c₀.f :: seen) π Hπ
            have hus := unseenSites_cons g c₀.f seen hcontf
            simp only [List.length_cons] at hfuel
            omega
          by_cases hon : c₀.f ∈ r0 :: r1 :: R'
          · obtain ⟨l₁, l₂, hsplit⟩ := List.append_of_mem hon
            have hchain2 : List.Chain' (fun a b => calls g b a) (c₀.f :: l₂) := by
              have hx := hchain
              rw [hsplit] at hx
              exact hx.right_of_append
            have hnd2 : (c₀.f :: l₂).Nodup := by
              have hx := hnd
              rw [hsplit] at hx
              exact hx.of_append_right
            have hlens := congrArg List.length hsplit
            simp only [List.length_cons, List.length_append] at hlens htlen
            cases l₂ with
            | nil =>
              have hc0E : c₀.f = E := by
                have hx := hlast
                rw [hsplit, List.getLast?_append_of_ne_nil l₁ (by simp)] at hx
                simpa using hx
              obtain ⟨s, hs, hl⟩ := h7 c₀ (List.mem_cons_self c₀ rest)
                (by rw [hc0E]; exact hE)
              refine ⟨s, bfs_cands_mono g π entriesL skipL n _ _ _ _ s (i3 s hs), by omega⟩
            | cons b1 l₂t =>
              have hedge : calls g b1 c₀.f := (List.chain'_cons.mp hchain2).1
              obtain ⟨cs0, hcs0m, hcs0p⟩ := hedge
              have hb1mem : b1 ∈ r0 :: r1 :: R' := by
                rw [hsplit]
                exact List.mem_append_right _ (List.mem_cons_of_mem _ (List.mem_cons_self _ _))
              have hb1ns : b1 ∉ seen := hseenR b1 hb1mem
              have hb1nc : b1 ≠ c₀.f := by
                intro he
                exact (List.nodup_cons.mp hnd2).1 (he ▸ List.mem_cons_self b1 l₂t)
              have hcont2 : (c₀.f :: seen).contains b1 = false := by
                apply not_mem_of_contains_false
                intro hm
                rcases List.mem_cons.mp hm with hx | hx
                · exact hb1nc hx
                · exact hb1ns hx
              obtain ⟨cs, hcsm, hcsp⟩ := callsites_complete g (g.node c₀.f).callSites
                (c₀.f :: seen) π Hπ cs0 hcs0m (by rw [hcs0p]; exact hcont2)
              simp only [List.length_cons] at hlens
              have hbound : c₀.len + 1 + l₂t.length + 1 ≤ M + 1 := by omega
              cases l₂t with
              | nil =>
                have hb1E : b1 = E := by
                  have hx := hlast
                  rw [hsplit, getLast_append_cons l₁ c₀.f [b1] (by simp)] at hx
                  simpa using hx
                obtain ⟨s, hs, hl⟩ := i6 cs hcsm (by rw [hcsp, hcs0p, hb1E]; exact hE)
                refine ⟨s, bfs_cands_mono g π entriesL skipL n _ _ _ _ s hs, ?_⟩
                simp only [List.length_nil] at hbound
                omega
              | cons b2 l₃ =>
                have hb1skip : b1 ∉ skipL := by
                  apply hskipR
                  rw [hsplit]
                  exact head_mem_dropLast_append l₁ c₀.f b1 (b2 :: l₃) (by simp)
                rcases i5 cs hcsm
                    (by rw [hcsp, hcs0p]; exact not_mem_of_contains_false skipL b1 hb1skip) with
                  ⟨t2, ht2q, ht2f, ht2len⟩ | ⟨s, hs, hl⟩
                · refine ih _ _ _ _ b1 (b2 :: l₃) stInv hfuel2 (Or.inr ?_)
                  refine ⟨?_, ?_, ?_, ?_, ?_, ?_, t2, ht2q, by rw [ht2f, hcsp, hcs0p], ?_⟩
                  · have hx := hlast
                    rw [hsplit, getLast_append_cons l₁ c₀.f (b1 :: b2 :: l₃) (by simp)] at hx
                    exact hx
                  · exact (List.chain'_cons.mp hchain2).2
                  · intro x hx
                    apply hskipR
                    rw [hsplit]
                    exact mem_dropLast_append_cons l₁ c₀.f (b1 :: b2 :: l₃) (by simp) x hx
                  · intro x hx
                    refine hsinkR x ?_
                    rw [hsplit]
                    exact List.mem_append_right _ (List.mem_cons_of_mem _ hx)
                  · exact (List.nodup_cons.mp hnd2).2
                  · intro x hx hm
                    rcases List.mem_cons.mp hm with hy | hy
                    · exact (List.nodup_cons.mp hnd2).1 (hy ▸ hx)
                    · exact hseenR x
                        (by rw [hsplit]; exact List.mem_append_right _ (List.mem_cons_of_mem _ hx))
                        hy
                  · rw [ht2len]
                    simp only [List.length_cons] at hbound ⊢
                    omega
                · refine ⟨s, bfs_cands_mono g π entriesL skipL n _ _ _ _ s hs, ?_⟩
                  simp only [List.length_cons] at hbound
                  omega
          · have htrest : t ∈ rest := by
              rcases List.mem_cons.mp htq with he | he
              · exfalso
                apply hon
                rw [← he, htf]
                exact List.mem_cons_self _ _
              · exact he
            simp only [List.length_cons] at htlen
            rcases i4 t htrest with ht2 | ⟨s, hs, hl⟩
            · refine ih _ _ _ _ r0 (r1 :: R') stInv hfuel2 (Or.inr ?_)
              refine ⟨hlast, hchain, hskipR, hsinkR, hnd, ?_, t, ht2, htf, ?_⟩
              · intro x hx hm
                rcases List.mem_cons.mp hm with hy | hy
                · exact hon (hy ▸ hx)
                · exact hseenR x hx hy
              · simp only [List.length_cons]
                omega
            · refine ⟨s, bfs_cands_mono g π entriesL skipL n _ _ _ _ s hs, ?_⟩
              omega

/-! ### Deduplication of witness paths -/

theorem self_mem_dropLast_append (A : List Nat) (a : Nat) (D : List Nat) (hD : D ≠ []) :
    a ∈ (A ++ a :: D).dropLast := by
  rw [List.dropLast_append_of_ne_nil A (by simp), List.dropLast_cons_of_ne_nil hD]
  exact List.mem_append_right _ (List.mem_cons_self a D.dropLast)

theorem mem_dropLast_cons (a : Nat) (D : List Nat) (hD : D ≠ []) (y : Nat)
    (hy : y ∈ D.dropLast) : y ∈ (a :: D).dropLast := by
  rw [List.dropLast_cons_of_ne_nil hD]
  exact List.mem_cons_of_mem a hy

theorem dedup_dropLast_subset (A B C : List Nat) (a : Nat) :
    ∀ y ∈ (A ++ a :: C).dropLast, y ∈ (A ++ a :: B ++ a :: C).dropLast := by
  intro y hy
  have hBne : (B ++ a :: C) ≠ [] := by simp
  cases C with
  | nil =>
    rw [List.dropLast_concat] at hy
    rw [show A ++ a :: B ++ a :: [] = A ++ a :: (B ++ [a]) by simp]
    rw [List.dropLast_append_of_ne_nil A (by simp)]
    exact List.mem_append_left _ hy
  | cons c C2 =>
    rw [List.dropLast_append_of_ne_nil A (by simp),
      List.dropLast_cons_of_ne_nil (by simp : (c :: C2) ≠ [])] at hy
    rw [show A ++ a :: B ++ a :: (c :: C2) = A ++ a :: (B ++ a :: c :: C2) by simp]
    rcases List.mem_append.mp hy with h | h
    · rw [List.dropLast_append_of_ne_nil A (by simp)]
      exact List.mem_append_left _ h
    · rcases List.mem_cons.mp h with h2 | h2
    
      · rw [h2]
        exact self_mem_dropLast_append A a (B ++ a :: c :: C2) (by simp)
      · rw [List.dropLast_append_of_ne_nil A (by simp)]
        refine List.mem_append_right _ ?_
        refine mem_dropLast_cons a _ (by simp) y ?_
        exact mem_dropLast_append_cons B a (c :: C2) (by simp) y h2

theorem not_nodup_split : ∀ (l : List Nat), ¬l.Nodup →
    ∃ A a B C, l = A ++ a :: B ++ a :: C := by
  intro l
  induction l with
  | nil => intro h; exact absurd List.nodup_nil h
  | cons x t ih =>
    intro h
    by_cases hx : x ∈ t
    · obtain ⟨B, C, hbc⟩ := List.append_of_mem hx
      exact ⟨[], x, B, C, by rw [hbc]; simp⟩
    · have hnt : ¬t.Nodup := by
        intro hnd
        exact h (List.nodup_cons.mpr ⟨hx, hnd⟩)
      obtain ⟨A, a, B, C, hac⟩ := ih hnt
      exact ⟨x :: A, a, B, C, by rw [hac]; simp⟩

theorem head_append_cons_eq (A : List Nat) (a : Nat) (X Y : List Nat) :
    (A ++ a :: X).head? = (A ++ a :: Y).head? := by
  cases A <;> simp

theorem head_mem_dropLast (l : List Nat) (x : Nat) (hl : 2 ≤ l.length)
    (hx : l.head? = some x) : x ∈ l.dropLast := by
  cases l with
  | nil => simp at hx
  | cons y t =>
    cases t with
    | nil => simp at hl
    | cons z t2 =>
      simp only [List.head?_cons, Option.some_inj] at hx
      rw [← hx, List.dropLast_cons_of_ne_nil (by simp : (z :: t2) ≠ [])]
      exact List.mem_cons_self y _

theorem witnessPath_dedup (vuln : Vuln) (res : Result) (sink : Nat) :
    ∀ (L : List Nat), WitnessPathUnique vuln res sink L →
    ∃ L2, WitnessPathUnique vuln res sink L2 ∧ L2.Nodup ∧ L2.length ≤ L.length := by
  suffices h : ∀ (n : Nat) (L : List Nat), L.length ≤ n → WitnessPathUnique vuln res sink L →
      ∃ L2, WitnessPathUnique vuln res sink L2 ∧ L2.Nodup ∧ L2.length ≤ L.length by
    intro L hL
    exact h L.length L le_rfl hL
  intro n
  induction n with
  | zero =>
    intro L hlen hL
    obtain ⟨⟨h2, _, _⟩, _⟩ := hL
    omega
  | succ n ih =>
    intro L hlen hL
    by_cases hnd : L.Nodup
    · exact ⟨L, hL, hnd, le_rfl⟩
    obtain ⟨A, a, B, C, hsplit⟩ := not_nodup_split L hnd
    have hsplit2 : L = A ++ a :: (B ++ a :: C) := by rw [hsplit]; simp
    obtain ⟨⟨hlen2, ⟨⟨E, hhead, hEent⟩, hlast, hchain⟩, hskipI⟩, hsinkI⟩ := hL
    have hlt : (A ++ a :: C).length < L.length := by
      rw [hsplit2]
      simp only [List.length_append, List.length_cons]
      omega
    have hhead2 : (A ++ a :: C).head? = some E := by
      rw [head_append_cons_eq A a C (B ++ a :: C), ← hsplit2]
      exact hhead
    have hlast2 : (A ++ a :: C).getLast? = some sink := by
      cases hC : C with
      | nil =>
        have hLlast : L.getLast? = some a := by
          rw [hsplit2, hC, getLast_append_cons A a (B ++ a :: []) (by simp),
            show B ++ a :: ([] : List Nat) = B ++ [a] from by simp,
            List.getLast?_append_of_ne_nil B (by simp)]
          simp
        have hsa : a = sink := by
          rw [hLlast] at hlast
          simpa using hlast
        rw [show A ++ a :: ([] : List Nat) = A ++ [a] from by simp,
          List.getLast?_append_of_ne_nil A (by simp)]
        simp [hsa]
      | cons c C2 =>
        rw [getLast_append_cons A a (c :: C2) (by simp)]
        rw [hsplit2, hC, getLast_append_cons A a (B ++ a :: c :: C2) (by simp),
          getLast_append_cons B a (c :: C2) (by simp)] at hlast
        exact hlast
    have hchainL : List.Chain' (calls res.callGraph) (A ++ a :: (B ++ a :: C)) := by
      rw [← hsplit2]
      exact hchain
    obtain ⟨hcA, hcRest, hlink⟩ := List.chain'_append.mp hchainL
    have hcaC : List.Chain' (calls res.callGraph) (a :: C) := by
      have hca : List.Chain' (calls res.callGraph) ((a :: B) ++ (a :: C)) := by
        rw [show (a :: B) ++ (a :: C) = a :: (B ++ a :: C) from by simp]
        exact hcRest
      exact hca.right_of_append
    have hchain2 : List.Chain' (calls res.callGraph) (A ++ a :: C) := by
      rw [List.chain'_append]
      refine ⟨hcA, hcaC, fun x hx y hy => hlink x hx y ?_⟩
      simpa using hy
    have hlen22 : 2 ≤ (A ++ a :: C).length := by
      by_contra hcon
      have hA0 : A = [] := by
        apply List.eq_nil_of_length_eq_zero
        simp only [List.length_append, List.length_cons] at hcon
        omega
      have hC0 : C = [] := by
        apply List.eq_nil_of_length_eq_zero
        simp only [List.length_append, List.length_cons] at hcon
        omega
      have hEa : a = E := by
        rw [hA0] at hhead2
        simpa using hhead2
      have hsinka : a = sink := by
        rw [hA0, hC0] at hlast2
        simpa using hlast2
      apply hsinkI
      rw [← hsinka, hEa]
      exact head_mem_dropLast L E hlen2 hhead
    have hsinkI2 : sink ∉ (A ++ a :: C).dropLast := by
      intro hmem
      apply hsinkI
      rw [hsplit]
      exact dedup_dropLast_subset A B C a sink hmem
    have hskipI2 : ∀ y ∈ (A ++ a :: C).tail.dropLast, y ∉ skipSymbols vuln res := by
      intro y hy
      apply hskipI
      rw [hsplit]
      cases A with
      | nil =>
        simp only [List.nil_append, List.cons_append, List.tail_cons] at hy ⊢
        cases C with
        | nil => simp at hy
        | cons c C2 =>
          exact mem_dropLast_append_cons B a (c :: C2) (by simp) y hy
      | cons h0 A2 =>
        simp only [List.cons_append, List.tail_cons] at hy ⊢
        exact dedup_dropLast_subset A2 B C a y hy
    obtain ⟨L3, hL3, hnd3, hlen3⟩ := ih (A ++ a :: C) (by omega)
      ⟨⟨hlen22, ⟨⟨E, hhead2, hEent⟩, hlast2, hchain2⟩, hskipI2⟩, hsinkI2⟩
    exact ⟨L3, hL3, hnd3, by omega⟩

theorem unseenSites_nil (g : CallGraph) :
    unseenSites g [] = (g.functions.map (fun e => e.2.callSites.length)).sum := by
  unfold unseenSites
  congr 1
  congr 1
  apply List.filter_eq_self.mpr
  intro e _
  simp

theorem candidates_complete (vuln : Vuln) (res : Result) (π : List Nat → List Nat) (sink : Nat)
    (Hπ : ∀ l : List Nat, (π l).Perm l)
    (hsink : vuln.callSink = some sink)
    (L : List Nat) (hL : WitnessPathUnique vuln res sink L) (hnd : L.Nodup) :
    ∃ s ∈ callStackCandidates vuln res π, s.length ≤ L.length := by
  obtain ⟨⟨hlen2, ⟨⟨E, hhead, hEent⟩, hlast, hchain⟩, hskipI⟩, hsinkI⟩ := hL
  have hLne : L ≠ [] := by
    intro h0
    rw [h0] at hlen2
    simp at hlen2
  have hL0ne : L.dropLast ≠ [] := by
    intro h0
    have := congrArg List.length h0
    rw [List.length_dropLast] at this
    simp at this
    omega
  have hgetL : L.getLast hLne = sink := by
    have := List.getLast?_eq_getLast L hLne
    rw [this] at hlast
    simpa using hlast
  have hLsplit : L = L.dropLast ++ [sink] := by
    rw [← hgetL]
    exact (List.dropLast_concat_getLast hLne).symm
  have hLrev : L.reverse = sink :: (L.dropLast).reverse := by
    conv =>
      lhs
      rw [hLsplit]
    rw [List.reverse_append]
    simp
  have hchainR : List.Chain' (fun a b => calls res.callGraph b a)
      (sink :: (L.dropLast).reverse) := by
    rw [← hLrev]
    exact List.chain'_reverse.mpr hchain
  have hKlast : ((L.dropLast).reverse).getLast? = some E := by
    rw [List.getLast?_reverse]
    have hh : L.dropLast.head? = L.head? := by
      conv =>
        rhs
        rw [hLsplit]
      rw [List.head?_append_of_ne_nil _ hL0ne]
    rw [hh, hhead]
  have hKsink : ∀ x ∈ (L.dropLast).reverse, x ≠ sink := by
    intro x hx h0
    rw [List.mem_reverse] at hx
    exact hsinkI (h0 ▸ hx)
  have hKskip : ∀ x ∈ ((L.dropLast).reverse).dropLast, x ∉ skipSymbols vuln res := by
    intro x hx
    apply hskipI
    have h1 : ((L.dropLast).reverse).dropLast = (L.dropLast.tail).reverse := by
      cases hd : L.dropLast with
      | nil => simp
      | cons y t =>
        rw [List.reverse_cons, List.dropLast_concat]
        simp
    rw [h1, List.mem_reverse, List.tail_dropLast] at hx
    exact hx
  have hKnd : ((L.dropLast).reverse).Nodup := by
    rw [List.nodup_reverse]
    exact (List.dropLast_sublist L).nodup hnd
  have hKlen : ((L.dropLast).reverse).length = L.length - 1 := by
    rw [List.length_reverse, List.length_dropLast]
  unfold callStackCandidates
  rw [hsink]
  cases hf : searchFuel res with
  | zero => exact absurd (hf ▸ searchFuel_pos res) (by omega)
  | succ n =>
    simp only [bfsLoop]
    rw [if_neg (by
      simp : ¬(List.contains [] (CallChain.f { call := none, f := sink, child := [] }) = true))]
    obtain ⟨stInv, i3, i4, i5, i6, i7⟩ := bfs_step res.callGraph π res.entryFunctions
      (skipSymbols vuln res) sink { call := none, f := sink, child := [] } [] [] [] 0
      (fun t ht => by
        rw [List.mem_singleton.mp ht]
        exact initChain_wf res.callGraph sink)
      (fun t ht => by
        rw [List.mem_singleton.mp ht, initChain_ids]
        simp)
      (fun t ht => by
        rw [List.mem_singleton.mp ht, initChain_ids]
        simp)
      (List.pairwise_singleton _ _)
      (fun s hs => absurd hs (List.not_mem_nil s))
      (fun h => absurd rfl h)
      (fun t ht => absurd ht (List.not_mem_nil t))
      (fun s hs => absurd hs (List.not_mem_nil s))
      (List.mem_cons_self sink [])
    have hfuel2 : (processSites res.entryFunctions (skipSymbols vuln res)
        { call := none, f := sink, child := [] }
        (callsites res.callGraph
          (res.callGraph.node (CallChain.f { call := none, f := sink, child := [] })).callSites
          (CallChain.f { call := none, f := sink, child := [] } :: []) π) [] [] 0).1.length
        + unseenSites res.callGraph
          (CallChain.f { call := none, f := sink, child := [] } :: []) ≤ n := by
      have hcl := callsites_length res.callGraph
        (res.callGraph.node (CallChain.f { call := none, f := sink, child := [] })).callSites
        (CallChain.f { call := none, f := sink, child := [] } :: []) π Hπ
      have hus := unseenSites_cons res.callGraph sink [] (by simp)
      have hnil := unseenSites_nil res.callGraph
      unfold searchFuel at hf
      simp only [List.length_nil, Nat.zero_add] at i7
      have hproj : CallChain.f { call := none, f := sink, child := [] } = sink := rfl
      rw [hproj] at hcl
      rw [hproj]
      omega
    cases hK : (L.dropLast).reverse with
    | nil => exact absurd hK (by
        intro h0
        exact hL0ne (by simpa using congrArg List.reverse h0))
    | cons k1 K2 =>
      rw [hK] at hchainR hKlast hKsink hKskip hKnd hKlen
      have hedge : calls res.callGraph k1 sink := (List.chain'_cons.mp hchainR).1
      obtain ⟨cs0, hcs0m, hcs0p⟩ := hedge
      have hk1sink : k1 ≠ sink := hKsink k1 (List.mem_cons_self _ _)
      have hcont1 : (CallChain.f { call := none, f := sink, child := [] } :: []).contains k1
          = false := by
        apply not_mem_of_contains_false
        intro hm
        exact hk1sink (by simpa using hm)
      obtain ⟨cs, hcsm, hcsp⟩ := callsites_complete res.callGraph
        (res.callGraph.node (CallChain.f { call := none, f := sink, child := [] })).callSites
        (CallChain.f { call := none, f := sink, child := [] } :: []) π Hπ cs0 hcs0m
        (by rw [hcs0p]; exact hcont1)
      cases K2 with
      | nil =>
        have hk1E : k1 = E := by simpa using hKlast
        obtain ⟨s, hs, hl⟩ := i6 cs hcsm (by rw [hcsp, hcs0p, hk1E]; exact hEent)
        refine ⟨s, bfs_cands_mono res.callGraph π res.entryFunctions (skipSymbols vuln res)
          n _ _ _ _ s hs, ?_⟩
        have : CallChain.len { call := none, f := sink, child := [] } = 1 := rfl
        omega
      | cons k2 K3 =>
        have hk1skip : k1 ∉ skipSymbols vuln res := by
          apply hKskip
          rw [List.dropLast_cons_of_ne_nil (by simp : (k2 :: K3) ≠ [])]
          exact List.mem_cons_self _ _
        rcases i5 cs hcsm (by
            rw [hcsp, hcs0p]
            exact not_mem_of_contains_false _ k1 hk1skip) with
          ⟨t2, ht2q, ht2f, ht2len⟩ | ⟨s, hs, hl⟩
        · refine bfs_complete res.callGraph π res.entryFunctions (skipSymbols vuln res) sink
            Hπ L.length E hEent n _ _ _ _ k1 (k2 :: K3) stInv hfuel2 (Or.inr ?_)
          refine ⟨hKlast, (List.chain'_cons.mp hchainR).2, hKskip, hKsink, hKnd, ?_,
            t2, ht2q, by rw [ht2f, hcsp, hcs0p], ?_⟩
          · intro x hx hm
            exact hKsink x hx (by simpa using hm)
          · rw [ht2len]
            have hl1 : CallChain.len { call := none, f := sink, child := [] } = 1 := rfl
            simp only [List.length_cons] at hKlen ⊢
            omega
        · refine ⟨s, bfs_cands_mono res.callGraph π res.entryFunctions (skipSymbols vuln res)
            n _ _ _ _ s hs, ?_⟩
          have hl1 : CallChain.len { call := none, f := sink, child := [] } = 1 := rfl
          omega

/-! ### The position and function orders -/

theorem bool_false_of_not {b : Bool} (h : ¬b = true) : b = false := by
  cases b
  · rfl
  · exact absurd rfl h

theorem posLess_iff (p q : Position) : posLess p q = true ↔
    (p.line < q.line ∨ (p.line = q.line ∧ (p.column < q.column
      ∨ (p.column = q.column ∧ p.filename < q.filename)))) := by
  unfold posLess
  split_ifs with h1 h2 h3 h4
  · simpa using Or.inl h1
  · simp only [Bool.false_eq_true, false_iff]
    rintro (h | ⟨he, _⟩) <;> omega
  · simpa using Or.inr ⟨by omega, Or.inl h3⟩
  · simp only [Bool.false_eq_true, false_iff]
    rintro (h | ⟨he, h | ⟨hce, _⟩⟩) <;> omega
  · simp only [decide_eq_true_eq]
    constructor
    · intro h
      exact Or.inr ⟨by omega, Or.inr ⟨by omega, h⟩⟩
    · rintro (h | ⟨he, h | ⟨hce, hf⟩⟩)
      · omega
      · omega
      · exact hf

theorem posLess_irrefl (p : Position) : posLess p p = false := by
  cases hpp : posLess p p
  · rfl
  · exfalso
    rcases (posLess_iff p p).mp hpp with h | ⟨_, h | ⟨_, h⟩⟩
    · omega
    · omega
    · exact absurd h (lt_irrefl _)

theorem posLess_trans (p q r : Position) (h1 : posLess p q = true)
    (h2 : posLess q r = true) : posLess p r = true := by
  apply (posLess_iff p r).mpr
  rcases (posLess_iff p q).mp h1 with a | ⟨e1, b | ⟨e2, c⟩⟩ <;>
    rcases (posLess_iff q r).mp h2 with a2 | ⟨e3, b2 | ⟨e4, c2⟩⟩
  · exact Or.inl (by omega)
  · exact Or.inl (by omega)
  · exact Or.inl (by omega)
  · exact Or.inl (by omega)
  · exact Or.inr ⟨by omega, Or.inl (by omega)⟩
  · exact Or.inr ⟨by omega, Or.inl (by omega)⟩
  · exact Or.inl (by omega)
  · exact Or.inr ⟨by omega, Or.inl (by omega)⟩
  · exact Or.inr ⟨by omega, Or.inr ⟨by omega, lt_trans c c2⟩⟩

theorem posLess_antisymm (p q : Position) (h1 : posLess p q = false)
    (h2 : posLess q p = false) : p = q := by
  have n1 : posLess p q = true → False := by
    intro h
    rw [h1] at h
    exact Bool.noConfusion h
  have n2 : posLess q p = true → False := by
    intro h
    rw [h2] at h
    exact Bool.noConfusion h
  have hl : p.line = q.line := by
    by_contra hne
    rcases lt_or_gt_of_ne hne with h | h
    · exact n1 ((posLess_iff p q).mpr (Or.inl h))
    · exact n2 ((posLess_iff q p).mpr (Or.inl h))
  have hc : p.column = q.column := by
    by_contra hne
    rcases lt_or_gt_of_ne hne with h | h
    · exact n1 ((posLess_iff p q).mpr (Or.inr ⟨hl, Or.inl h⟩))
    · exact n2 ((posLess_iff q p).mpr (Or.inr ⟨hl.symm, Or.inl h⟩))
  have hf : p.filename = q.filename := by
    by_contra hne
    rcases lt_or_gt_of_ne hne with h | h
    · exact n1 ((posLess_iff p q).mpr (Or.inr ⟨hl, Or.inr ⟨hc, h⟩⟩))
    · exact n2 ((posLess_iff q p).mpr (Or.inr ⟨hl.symm, Or.inr ⟨hc.symm, h⟩⟩))
  cases p
  cases q
  simp_all

theorem funcLess_trans (f1 f2 f3 : FuncNode) (h1 : funcLess f1 f2 = true)
    (h2 : funcLess f2 f3 = true) : funcLess f1 f3 = true := by
  obtain ⟨n1, r1, k1, o1, s1⟩ := f1
  obtain ⟨n2, r2, k2, o2, s2⟩ := f2
  obtain ⟨n3, r3, k3, o3, s3⟩ := f3
  cases o3 with
  | none => cases o1 <;> simp [funcLess]
  | some p3 =>
    cases o2 with
    | none => simp [funcLess] at h2
    | some p2 =>
      cases o1 with
      | none => simp [funcLess] at h1
      | some p1 =>
        simp only [funcLess] at h1 h2 ⊢
        by_cases a : posLess p1 p2 = true
        · by_cases b : posLess p2 p3 = true
          · simp [posLess_trans p1 p2 p3 a b]
          · by_cases b2 : posLess p3 p2 = true
            · simp [b, b2] at h2
            · have he : p2 = p3 :=
                posLess_antisymm p2 p3 (bool_false_of_not b) (bool_false_of_not b2)
              subst he
              simp [a]
        · by_cases a2 : posLess p2 p1 = true
          · simp [a, a2] at h1
          · have he : p1 = p2 :=
              posLess_antisymm p1 p2 (bool_false_of_not a) (bool_false_of_not a2)
            subst he
            simp only [posLess_irrefl, Bool.false_eq_true, if_false] at h1 h2 ⊢
            by_cases b : posLess p1 p3 = true
            · simp [b]
            · by_cases b2 : posLess p3 p1 = true
              · simp [b, b2] at h2
              · have he2 : p1 = p3 :=
                  posLess_antisymm p1 p3 (bool_false_of_not b) (bool_false_of_not b2)
                subst he2
                simp only [posLess_irrefl, Bool.false_eq_true, if_false,
                  decide_eq_true_eq] at h1 h2 ⊢
                exact lt_trans h1 h2

/-! ### Determinism of the search under strict caller ordering -/

theorem callsites_det (g : CallGraph) (sites : List CallSite) (visited : List Nat)
    (π1 π2 : List Nat → List Nat)
    (H1 : ∀ l : List Nat, (π1 l).Perm l) (H2 : ∀ l : List Nat, (π2 l).Perm l)
    (hstrict : ∀ cs1 ∈ sites, ∀ cs2 ∈ sites, cs1.parent ≠ cs2.parent →
      funcLess (g.node cs1.parent) (g.node cs2.parent)
        = !(funcLess (g.node cs2.parent) (g.node cs1.parent))) :
    callsites g sites visited π1 = callsites g sites visited π2 := by
  have hkeysnd := minCsFold_keys_nodup sites visited
  have hkeysite : ∀ a ∈ (minCsFold sites visited).map (fun e => e.1),
      ∃ cs ∈ sites, cs.parent = a := by
    intro a ha
    simp only [List.mem_map] at ha
    obtain ⟨e, he, hea⟩ := ha
    have hme := minCsFold_entries sites visited e he
    exact ⟨e.2, hme.2.1, by rw [hme.1, hea]⟩
  have htricho : ∀ a ∈ (minCsFold sites visited).map (fun e => e.1),
      ∀ b ∈ (minCsFold sites visited).map (fun e => e.1), a ≠ b →
      funcLess (g.node a) (g.node b) = !(funcLess (g.node b) (g.node a)) := by
    intro a ha b hb hne
    obtain ⟨cs1, hcs1, hp1⟩ := hkeysite a ha
    obtain ⟨cs2, hcs2, hp2⟩ := hkeysite b hb
    have h := hstrict cs1 hcs1 cs2 hcs2 (by rw [hp1, hp2]; exact hne)
    rw [hp1, hp2] at h
    exact h
  have htot : ∀ (K : List Nat), K.Perm ((minCsFold sites visited).map (fun e => e.1)) →
      ∀ a ∈ K, ∀ b ∈ K, a ≠ b →
      funcLess (g.node a) (g.node b) = false → funcLess (g.node b) (g.node a) = true := by
    intro K hK a ha b hb hne hf
    have h := htricho a (hK.subset ha) b (hK.subset hb) hne
    cases hba : funcLess (g.node b) (g.node a)
    · rw [hf, hba] at h
      simp at h
    · rfl
  have hpw1 := sortGo_pairwise_nodup (fun i j => funcLess (g.node i) (g.node j))
    (π1 ((minCsFold sites visited).map (fun e => e.1)))
    (fun a b c h1 h2 => funcLess_trans _ _ _ h1 h2)
    ((H1 _).symm.nodup hkeysnd)
    (htot _ (H1 _))
  have hpw2 := sortGo_pairwise_nodup (fun i j => funcLess (g.node i) (g.node j))
    (π2 ((minCsFold sites visited).map (fun e => e.1)))
    (fun a b c h1 h2 => funcLess_trans _ _ _ h1 h2)
    ((H2 _).symm.nodup hkeysnd)
    (htot _ (H2 _))
  have hperm : (sortGo (fun i j => funcLess (g.node i) (g.node j))
        (π1 ((minCsFold sites visited).map (fun e => e.1)))).Perm
      (sortGo (fun i j => funcLess (g.node i) (g.node j))
        (π2 ((minCsFold sites visited).map (fun e => e.1)))) :=
    ((sortGo_perm _ _).trans ((H1 _).trans ((H2 _).symm))).trans (sortGo_perm _ _).symm
  have hnd1 : (sortGo (fun i j => funcLess (g.node i) (g.node j))
      (π1 ((minCsFold sites visited).map (fun e => e.1)))).Nodup :=
    (sortGo_perm _ _).symm.nodup ((H1 _).symm.nodup hkeysnd)
  have hmemkeys : ∀ a ∈ sortGo (fun i j => funcLess (g.node i) (g.node j))
      (π1 ((minCsFold sites visited).map (fun e => e.1))),
      a ∈ (minCsFold sites visited).map (fun e => e.1) :=
    fun a ha => (H1 _).subset ((sortGo_perm _ _).subset ha)
  have hasym : ∀ a ∈ sortGo (fun i j => funcLess (g.node i) (g.node j))
      (π1 ((minCsFold sites visited).map (fun e => e.1))),
      ∀ b ∈ sortGo (fun i j => funcLess (g.node i) (g.node j))
      (π1 ((minCsFold sites visited).map (fun e => e.1))), a ≠ b →
      ¬(funcLess (g.node a) (g.node b) = true ∧ funcLess (g.node b) (g.node a) = true) := by
    intro a ha b hb hne hh
    have h := htricho a (hmemkeys a ha) b (hmemkeys b hb) hne
    rw [hh.1, hh.2] at h
    simp at h
  have heq := pairwise_perm_nodup_eq _ _ hpw1 hpw2 hperm hnd1 hasym
  simp only [callsites]
  rw [heq]

theorem node_strict (g : CallGraph) (hstrict : StrictCallers g) (f : Nat) :
    ∀ cs1 ∈ (g.node f).callSites, ∀ cs2 ∈ (g.node f).callSites, cs1.parent ≠ cs2.parent →
      funcLess (g.node cs1.parent) (g.node cs2.parent)
        = !(funcLess (g.node cs2.parent) (g.node cs1.parent)) := by
  intro cs1 h1 cs2 h2 hne
  unfold CallGraph.node at h1 h2
  cases hf : g.functions.find? (fun e => e.1 == f) with
  | none =>
    rw [hf] at h1
    simp at h1
  | some e =>
    rw [hf] at h1 h2
    exact hstrict e (List.mem_of_find?_eq_some hf) cs1 h1 cs2 h2 hne

theorem bfsLoop_congr (g : CallGraph) (π1 π2 : List Nat → List Nat)
    (entriesL skipL : List Nat)
    (hcs : ∀ f seen, callsites g (g.node f).callSites seen π1
      = callsites g (g.node f).callSites seen π2) :
    ∀ fuel queue seen cands candDepth,
      bfsLoop g π1 entriesL skipL fuel queue seen cands candDepth
        = bfsLoop g π2 entriesL skipL fuel queue seen cands candDepth := by
  intro fuel
  induction fuel with
  | zero => intro queue seen cands candDepth; rfl
  | succ n ih =>
    intro queue seen cands candDepth
    cases queue with
    | nil => rfl
    | cons c rest =>
      simp only [bfsLoop]
      cases h : seen.contains c.f
      · simp only [Bool.false_eq_true, if_false]
        rw [hcs c.f (c.f :: seen)]
        exact ih _ _ _ _
      · simp only [if_true]
        exact ih _ _ _ _

theorem callStack_det (vuln : Vuln) (res : Result) (π1 π2 : List Nat → List Nat)
    (H1 : ∀ l : List Nat, (π1 l).Perm l) (H2 : ∀ l : List Nat, (π2 l).Perm l)
    (hstrict : StrictCallers res.callGraph) :
    callStack vuln res π1 = callStack vuln res π2 := by
  unfold callStack callStackCandidates
  cases vuln.callSink with
  | none => rfl
  | some sink =>
    simp only
    rw [bfsLoop_congr res.callGraph π1 π2 res.entryFunctions (skipSymbols vuln res)
      (fun f seen => callsites_det res.callGraph _ seen π1 π2 H1 H2
        (node_strict res.callGraph hstrict f))]

/-! ### Each function is expanded at most once -/

theorem trace_not_mem_seen (g : CallGraph) (π : List Nat → List Nat)
    (entriesL skipL : List Nat) :
    ∀ fuel queue seen cands candDepth,
      ∀ x ∈ bfsLoopTrace g π entriesL skipL fuel queue seen cands candDepth, x ∉ seen := by
  intro fuel
  induction fuel with
  | zero => intro queue seen cands candDepth x hx; simp [bfsLoopTrace] at hx
  | succ n ih =>
    intro queue seen cands candDepth x hx
    cases queue with
    | nil => simp [bfsLoopTrace] at hx
    | cons c rest =>
      revert hx
      simp only [bfsLoopTrace]
      cases h : seen.contains c.f
      · simp only [Bool.false_eq_true, if_false]
        intro hx
        rcases List.mem_cons.mp hx with h1 | h1
        · subst h1
          exact contains_false_not_mem seen c.f h
        · intro hmem
          exact ih _ _ _ _ x h1 (List.mem_cons_of_mem _ hmem)
      · simp only [if_true]
        intro hx
        exact ih _ _ _ _ x hx

theorem trace_nodup (g : CallGraph) (π : List Nat → List Nat)
    (entriesL skipL : List Nat) :
    ∀ fuel queue seen cands candDepth,
      (bfsLoopTrace g π entriesL skipL fuel queue seen cands candDepth).Nodup := by
  intro fuel
  induction fuel with
  | zero => intro queue seen cands candDepth; simp [bfsLoopTrace]
  | succ n ih =>
    intro queue seen cands candDepth
    cases queue with
    | nil => simp [bfsLoopTrace]
    | cons c rest =>
      simp only [bfsLoopTrace]
      cases h : seen.contains c.f
      · simp only [Bool.false_eq_true, if_false]
        rw [List.nodup_cons]
        constructor
        · intro hmem
          exact trace_not_mem_seen g π entriesL skipL n _ _ _ _ c.f hmem
            (List.mem_cons_self _ _)
        · exact ih _ _ _ _
      · simp only [if_true]
        exact ih _ _ _ _

/-! ### A last edge of a chain -/

theorem chain_getLast_edge {R : Nat → Nat → Prop} :
    ∀ (L : List Nat) (z : Nat), List.Chain' R L → L.getLast? = some z → 2 ≤ L.length →
    ∃ y, R y z := by
  intro L
  induction L with
  | nil => intro z _ h _; simp at h
  | cons x t ih =>
    intro z hch hlast hlen
    cases t with
    | nil => simp at hlen
    | cons y s =>
      cases s with
      | nil =>
        have hz : y = z := by
          simp only [List.getLast?_cons_cons, List.getLast?_singleton] at hlast
          exact Option.some.inj hlast
        exact ⟨x, hz ▸ (List.chain'_cons.mp hch).1⟩
      | cons w u =>
        refine ih z hch.tail ?_ ?_
        · rw [List.getLast?_cons_cons] at hlast
          exact hlast
        · simp

/-! ### The claims -/

/-- C1: amended — shortest-path optimality holds relative to witness
paths in which the sink occurs only as the final frame (the paths the
search can discover).  Whenever such a path exists for a vulnerability
with a recorded call sink, a stack is returned, its frame count is the
length of such a path, and it is minimal among all of them.  (The
original claim, quantifying over all reachable sinks, fails: a sink
reachable only through itself — e.g. a self-loop on an entry sink —
yields no stack at all, see the counterexample.) -/
theorem c1_shortest_distance (vuln : Vuln) (res : Result) (π : List Nat → List Nat)
    (sink : Nat) (Hπ : ∀ l : List Nat, (π l).Perm l)
    (hsink : vuln.callSink = some sink)
    (L0 : List Nat) (hL0 : WitnessPathUnique vuln res sink L0) :
    ∃ s, callStack vuln res π = some s
      ∧ (∃ L, WitnessPathUnique vuln res sink L ∧ s.length = L.length)
      ∧ ∀ L, WitnessPathUnique vuln res sink L → s.length ≤ L.length := by
  obtain ⟨L1, hL1, hnd1, _⟩ := witnessPath_dedup vuln res sink L0 hL0
  obtain ⟨t, ht, hlent⟩ := candidates_complete vuln res π sink Hπ hsink L1 hL1 hnd1
  cases hcs : callStack vuln res π with
  | none =>
    exfalso
    unfold callStack at hcs
    rw [hsink] at hcs
    have hnil : sortGo stackLess (callStackCandidates vuln res π) = [] := by
      cases hh : sortGo stackLess (callStackCandidates vuln res π)
      · rfl
      · rw [hh] at hcs
        simp at hcs
    have hp := sortGo_perm stackLess (callStackCandidates vuln res π)
    rw [hnil] at hp
    rw [← hp.nil_eq] at ht
    exact absurd ht (List.not_mem_nil t)
  | some s =>
    have hmem : s ∈ callStackCandidates vuln res π :=
      callStack_mem_candidates vuln res π s hcs
    obtain ⟨dfin, hd⟩ := candidates_sound vuln res π sink hsink
    have hok := (hd s hmem).1
    have hslen := (hd s hmem).2
    refine ⟨s, rfl, ⟨stackIds s, candidateOK_witnessPath vuln res sink s hok,
      (stackIds_length s).symm⟩, ?_⟩
    intro L hL
    obtain ⟨L2, hL2, hnd2, hlen2⟩ := witnessPath_dedup vuln res sink L hL
    obtain ⟨t2, ht2, hlen3⟩ := candidates_complete vuln res π sink Hπ hsink L2 hL2 hnd2
    have ht2len := (hd t2 ht2).2
    omega

/-- Witness for C1 at the chain scenario: the four-node chain has the
unique witness path 1, 2, 3, 4, and a stack of that length is
returned. -/
theorem c1_shortest_distance_w :
    ∃ s, callStack v9 r9 (fun l => l) = some s
      ∧ (∃ L, WitnessPathUnique v9 r9 4 L ∧ s.length = L.length)
      ∧ ∀ L, WitnessPathUnique v9 r9 4 L → s.length ≤ L.length := by
  refine c1_shortest_distance v9 r9 (fun l => l) 4 (fun l => List.Perm.refl l) rfl
    [1, 2, 3, 4] ⟨⟨by decide, ⟨⟨1, rfl, by decide⟩, by decide, ?_⟩, by decide⟩, by decide⟩
  refine List.chain'_cons.mpr ⟨⟨csE9, by decide, rfl⟩, ?_⟩
  refine List.chain'_cons.mpr ⟨⟨csA9, by decide, rfl⟩, ?_⟩
  exact List.chain'_cons.mpr ⟨⟨csB9, by decide, rfl⟩, List.chain'_singleton 4⟩

/-- Counterexample to C1 as stated: in a graph whose only entry is the
sink itself with a self-loop call, the sink is reachable from an entry
function along the two-frame path 1, 1, yet the search returns no
stack, because the sink is marked seen before any call site of it is
expanded. -/
theorem c1_shortest_distance_cex :
    callStack vLoop rLoop (fun l => l) = none ∧ WitnessPath vLoop rLoop 1 [1, 1] := by
  refine ⟨by decide, by decide, ⟨⟨1, rfl, by decide⟩, by decide, ?_⟩, by decide⟩
  exact List.chain'_cons.mpr ⟨⟨csLoop, by decide, rfl⟩, List.chain'_singleton 1⟩

/-- C2: among the shortest-length candidates collected for one
vulnerability, the selected stack has minimum weight, i.e. the minimum
count of unresolved call sites. -/
theorem c2_weight_minimal (vuln : Vuln) (res : Result) (π : List Nat → List Nat)
    (s : CallStack) (h : callStack vuln res π = some s) :
    s ∈ callStackCandidates vuln res π
    ∧ ∀ t ∈ callStackCandidates vuln res π, weight s ≤ weight t :=
  ⟨callStack_mem_candidates vuln res π s h, callStack_weight_min vuln res π s h⟩

/-- Witness for C2: with one resolved and one unresolved equal-length
path, the resolved path is selected and weighs no more than either
candidate. -/
theorem c2_weight_minimal_w :
    [{ function := 1, call := some csr2 }, { function := 3, call := none }]
        ∈ callStackCandidates v2w r2w (fun l => l)
    ∧ ∀ t ∈ callStackCandidates v2w r2w (fun l => l),
        weight [{ function := 1, call := some csr2 }, { function := 3, call := none }]
          ≤ weight t :=
  c2_weight_minimal v2w r2w (fun l => l) _ (by decide)

/-- C3: amended — the mapping computed by `CallStacks` is independent of
the iteration order of the unordered backing map in `callsites`,
provided distinct caller functions of a common callee are strictly
ordered by `funcLess`.  (As stated the claim fails: when two callers
compare `funcLess`-true both ways — e.g. two position-less callers —
the insertion sort's result depends on the map iteration order, see the
counterexample.) -/
theorem c3_deterministic (res : Result) (π1 π2 : List Nat → List Nat)
    (H1 : ∀ l : List Nat, (π1 l).Perm l) (H2 : ∀ l : List Nat, (π2 l).Perm l)
    (hstrict : StrictCallers res.callGraph) :
    CallStacks res π1 = CallStacks res π2 := by
  unfold CallStacks
  exact List.map_congr_left (fun vuln _ => by
    rw [callStack_det vuln res π1 π2 H1 H2 hstrict])

/-- Witness for C3 at the chain scenario, whose nodes all carry distinct
positions: identity and reversal iteration orders agree. -/
theorem c3_deterministic_w :
    CallStacks r9 (fun l => l) = CallStacks r9 (fun l => l.reverse) :=
  c3_deterministic r9 (fun l => l) (fun l => l.reverse)
    (fun l => List.Perm.refl l) (fun l => List.reverse_perm l)
    (by unfold StrictCallers; decide)

/-- Counterexample to C3 as stated: with two position-less callers of
the sink, the two iteration orders of the `minCs` map select different
stacks. -/
theorem c3_deterministic_cex :
    CallStacks r3 (fun l => l) ≠ CallStacks r3 (fun l => l.reverse) := by
  decide

/-- C4: the stack returned for a vulnerability never contains the call
sink of a sibling vulnerability (same OSV entry, same import sink,
different Vuln) as an intermediate frame. -/
theorem c4_no_sibling_intermediate (vuln v2 : Vuln) (res : Result)
    (π : List Nat → List Nat) (sink x : Nat) (s : CallStack)
    (hsink : vuln.callSink = some sink)
    (h : callStack vuln res π = some s)
    (hv2 : v2 ∈ res.vulns) (hne : v2.id ≠ vuln.id) (hosv : v2.osv = vuln.osv)
    (himp : v2.importSink = vuln.importSink) (hx : v2.callSink = some x) :
    x ∉ (stackIds s).tail.dropLast := by
  intro hmem
  have hok := callStack_candidateOK vuln res π sink s hsink h
  exact (hok.2.2.2.2 x hmem) (skipSymbols_mem vuln v2 res x hv2 hne hosv himp hx)

/-- Witness for C4 at the sibling scenario: the sibling sink 4 does not
occur as an intermediate frame of the stack returned for the first
vulnerability. -/
theorem c4_no_sibling_intermediate_w :
    4 ∉ (stackIds [{ function := 1, call := some cs4a },
      { function := 3, call := none }]).tail.dropLast :=
  c4_no_sibling_intermediate v4a v4b r4 (fun l => l) 3 4 _ rfl (by decide)
    (by decide) (by decide) (by decide) (by decide) rfl

/-- C5: every returned stack is well formed: consecutive entries are
linked by the recorded call sites, the first entry's function is an
entry function of the Result, and the last entry is the vulnerability's
call sink with no call site. -/
theorem c5_wellformed (vuln : Vuln) (res : Result) (π : List Nat → List Nat)
    (sink : Nat) (s : CallStack)
    (hsink : vuln.callSink = some sink) (h : callStack vuln res π = some s) :
    StacksTo res.callGraph sink s
    ∧ (∃ e, s.head? = some e ∧ e.function ∈ res.entryFunctions)
    ∧ s.getLast? = some { function := sink, call := none } := by
  have hok := callStack_candidateOK vuln res π sink s hsink h
  refine ⟨hok.1, ?_, stacksTo_getLast res.callGraph sink s hok.1⟩
  obtain ⟨E, hE1, hE2⟩ := hok.2.2.1
  rw [stackIds_head] at hE1
  cases hs : s.head? with
  | none => rw [hs] at hE1; simp at hE1
  | some e =>
    rw [hs] at hE1
    have he : e.function = E := by simpa using hE1
    exact ⟨e, rfl, he ▸ hE2⟩

/-- Witness for C5 at the chain scenario. -/
theorem c5_wellformed_w :
    StacksTo r9.callGraph 4 [{ function := 1, call := some csE9 },
        { function := 2, call := some csA9 }, { function := 3, call := some csB9 },
        { function := 4, call := none }]
    ∧ (∃ e, ([{ function := 1, call := some csE9 }, { function := 2, call := some csA9 },
        { function := 3, call := some csB9 },
        { function := 4, call := none }] : CallStack).head? = some e
        ∧ e.function ∈ r9.entryFunctions)
    ∧ ([{ function := 1, call := some csE9 }, { function := 2, call := some csA9 },
        { function := 3, call := some csB9 },
        { function := 4, call := none }] : CallStack).getLast?
        = some { function := 4, call := none } :=
  c5_wellformed v9 r9 (fun l => l) 4 _ rfl (by decide)

/-- C6: a vulnerability whose call sink is not connected to any entry
function still appears in the output, with no stack. -/
theorem c6_unreachable_nil (vuln : Vuln) (res : Result) (π : List Nat → List Nat)
    (sink : Nat) (hv : vuln ∈ res.vulns) (hsink : vuln.callSink = some sink)
    (hnopath : ∀ L, ¬EntryPath res sink L) :
    (vuln, (none : Option CallStack)) ∈ CallStacks res π := by
  have hnone : callStack vuln res π = none := by
    cases hcs : callStack vuln res π with
    | none => rfl
    | some s =>
      exfalso
      have hok := callStack_candidateOK vuln res π sink s hsink hcs
      have hwp := candidateOK_witnessPath vuln res sink s hok
      exact hnopath (stackIds s) hwp.1.2.1
  unfold CallStacks
  rw [List.mem_map]
  exact ⟨vuln, hv, by rw [hnone]⟩

/-- Witness for C6 at the isolated-sink scenario. -/
theorem c6_unreachable_nil_w :
    (vIso, (none : Option CallStack)) ∈ CallStacks rIso (fun l => l) := by
  refine c6_unreachable_nil vIso rIso (fun l => l) 2 (by decide) rfl ?_
  rintro L ⟨⟨E, hhead, hE⟩, hlast, hchain⟩
  have hE1 : E = 1 := by simpa [rIso] using hE
  cases L with
  | nil => simp at hhead
  | cons a t =>
    have ha : a = E := by simpa using hhead
    cases t with
    | nil =>
      have ha2 : a = 2 := by simpa using hlast
      omega
    | cons b u =>
      obtain ⟨y, hy⟩ := chain_getLast_edge (a :: b :: u) 2 hchain hlast (by simp)
      obtain ⟨cs, hcs, _⟩ := hy
      have hnil : (rIso.callGraph.node 2).callSites = [] := by decide
      rw [hnil] at hcs
      exact absurd hcs (List.not_mem_nil cs)

/-- C7: each function is expanded at most once per search — the trace of
expanded functions has no duplicates — and `callsites` never returns a
call site whose caller is already visited. -/
theorem c7_visit_once (g : CallGraph) (π : List Nat → List Nat)
    (entriesL skipL : List Nat) :
    (∀ fuel queue seen cands candDepth,
      (bfsLoopTrace g π entriesL skipL fuel queue seen cands candDepth).Nodup)
    ∧ (∀ sites visited cs, cs ∈ callsites g sites visited π →
        visited.contains cs.parent = false) :=
  ⟨trace_nodup g π entriesL skipL,
    fun sites visited cs hcs => (callsites_sound g sites visited π cs hcs).2⟩

/-- C8: the claimed lexical tie-break for position-less pairs does not
hold in the code.  For both comparators, a pair of position-less inputs
compares true in both directions — in particular true where the first
qualified name is not lexically smaller — because the nil checks return
constant `true`/`false` before the lexical fallback (which itself
formats the wrong fields) can run. -/
theorem c8_comparator_bug :
    (csLess cs8a (some cs8b) = true ∧ csLess cs8b (some cs8a) = true
      ∧ funcLess f8a f8b = true ∧ funcLess f8b f8a = true)
    ∧ ¬((cs8a.recvType ++ "." ++ cs8a.name < cs8b.recvType ++ "." ++ cs8b.name)
        ∧ (cs8b.recvType ++ "." ++ cs8b.name < cs8a.recvType ++ "." ++ cs8a.name))
    ∧ ¬(FuncNode.str f8a < FuncNode.str f8b ∧ FuncNode.str f8b < FuncNode.str f8a) :=
  ⟨⟨by decide, by decide, by decide, by decide⟩,
    fun h => absurd h.2 (lt_asymm h.1), fun h => absurd h.2 (lt_asymm h.1)⟩

/-- C9: amended — the chain scenario entry → a → b → sink yields the
four-frame stack of entry, a, b and the sink (the final frame carrying
no call site), with weight 0; the spec's three-frame count omits the
sink frame. -/
theorem c9_chain_scenario :
    callStack v9 r9 (fun l => l)
      = some [{ function := 1, call := some csE9 }, { function := 2, call := some csA9 },
          { function := 3, call := some csB9 }, { function := 4, call := none }]
    ∧ weight [{ function := 1, call := some csE9 }, { function := 2, call := some csA9 },
          { function := 3, call := some csB9 }, { function := 4, call := none }] = 0 := by
  exact ⟨by decide, by decide⟩

/-- Counterexample to C9 as stated: the stack returned for the chain
scenario is not a three-frame stack (it has four frames). -/
theorem c9_chain_scenario_cex :
    callStack v9 r9 (fun l => l) ≠ none
    ∧ Option.map List.length (callStack v9 r9 (fun l => l)) ≠ some 3 := by
  exact ⟨by decide, by decide⟩

/-- C10: every returned stack has at least two frames, and a
vulnerability whose call sink is itself an entry function with no
callers yields no stack rather than a one-frame stack. -/
theorem c10_min_two_frames :
    (∀ (vuln : Vuln) (res : Result) (π : List Nat → List Nat) (s : CallStack),
      callStack vuln res π = some s → 2 ≤ s.length)
    ∧ callStack v10 r10 (fun l => l) = none := by
  constructor
  · intro vuln res π s h
    obtain ⟨sink, hsink⟩ := callStack_some_sink vuln res π s h
    exact (callStack_candidateOK vuln res π sink s hsink h).2.1
  · decide
